import Mathlib

/-!
Verification of the k-d tree implemented in `src/projects/p3/kdtree.hpp`.

The C++ class `KDTree<std::tuple<KeyTypes...>, ValueType>` is shallowly
embedded as follows.

* A key (`std::tuple` of `k` totally ordered components) is a `List Nat`;
  component `DIM` is read with `List.getD` (all keys of one tree have
  length `k`, so `getD` never hits its default on real data).
* A value is a `Nat`.
* The node store (`Node` with `left`/`right` pointers) is the inductive
  `Tree`; the `parent` pointer is represented, for cursor purposes, by the
  zipper context `List Crumb` (the path of ancestors from the focused node
  up to the root), which carries exactly the information the parent chain
  gives the C++ iterator.
* The tree object (`root` pointer plus the `treeSize` counter) is `KDT`.
* `std::nth_element` inside `KDTree_helper` is modelled by a full stable
  sort with the very same comparator (`compareData<DIM>`).  After the
  constructor's deduplication all keys are distinct, so that comparator is
  a strict total order on the elements at hand; every conforming
  `nth_element` then yields the same median element and the same left and
  right sub-multisets, hence the same tree as the sort-based model.
* The templates `find<DIM>`, `insert<DIM>`, `erase<DIM>`, `findMin<DIM_CMP,
  DIM>`, `findMax<DIM_CMP, DIM>` become functions taking the dimensions as
  `Nat` arguments; `DIM_NEXT = (DIM + 1) % KeySize` is `(dim + 1) % k`.
-/

namespace KD

/-- A key: the `std::tuple` of components, one per dimension. -/
abbrev Key := List Nat

/-- A mapped value. -/
abbrev Value := Nat

/-- A key-value pair (`Data` in the source). -/
abbrev Entry := Key × Value

/-- `std::get<DIM>(key)`. -/
def comp (key : Key) (d : Nat) : Nat := key.getD d 0

/-- `std::less<>` applied to two whole tuples: lexicographic comparison. -/
def lexLt : Key → Key → Bool
  | [], [] => false
  | [], _ :: _ => true
  | _ :: _, [] => false
  | a :: as, b :: bs => if a < b then true else if b < a then false else lexLt as bs

/-- `compareKey<DIM, std::less<>>`: compare component `DIM`; if the
components are equal fall back to `std::less` on the whole tuples. -/
def cmpKeyLt (d : Nat) (a b : Key) : Bool :=
  if comp a d ≠ comp b d then comp a d < comp b d else lexLt a b

/-- `compareKey<DIM, std::greater<>>`: `std::greater` on a pair of values
`x, y` is `y < x`, both on the single components and on the whole tuples. -/
def cmpKeyGt (d : Nat) (a b : Key) : Bool :=
  if comp a d ≠ comp b d then comp b d < comp a d else lexLt b a

/-- `strictLessKey<DIM, std::less<>>`: the descent test used by `find`,
`insert` and `erase`; only the active component, no tie-break. -/
def strictLessKey (d : Nat) (a b : Key) : Bool := comp a d < comp b d

/-- The node store: a binary tree of key-value pairs. -/
inductive Tree where
  | leaf : Tree
  | node : Tree → Key → Value → Tree → Tree
deriving DecidableEq

/-- The entries of a tree read off by an in-order walk. -/
def inorder : Tree → List Entry
  | .leaf => []
  | .node l ky v r => inorder l ++ (ky, v) :: inorder r

/-- Number of live nodes of the structure. -/
def count : Tree → Nat
  | .leaf => 0
  | .node l _ _ r => count l + 1 + count r

/-- The tree object: root pointer plus the `treeSize` counter. -/
structure KDT where
  root : Tree
  treeSize : Nat
deriving DecidableEq

/-- The default-constructed empty tree. -/
def emptyKDT : KDT := { root := .leaf, treeSize := 0 }

/-- `find<DIM>(key, node)` (nullptr becomes `none`). -/
def findRec (k : Nat) : Nat → Key → Tree → Option Entry
  | _, _, .leaf => none
  | dim, key, .node l ky v r =>
    if ky = key then some (ky, v)
    else if strictLessKey dim key ky then findRec k ((dim + 1) % k) key l
    else findRec k ((dim + 1) % k) key r

/-- Public `find(key)`: `find<0>(key, root)`. -/
def findPub (k : Nat) (key : Key) (T : KDT) : Option Entry := findRec k 0 key T.root

/-- `insert<DIM>(key, value, node, parent)`: returns the updated subtree and
whether insertion took place (`false` when the key already existed and only
the value was replaced). -/
def insertRec (k : Nat) : Nat → Key → Value → Tree → Tree × Bool
  | _, key, v, .leaf => (.node .leaf key v .leaf, true)
  | dim, key, v, .node l ky vv r =>
    if ky = key then (.node l ky v r, false)
    else if strictLessKey dim key ky then
      let p := insertRec k ((dim + 1) % k) key v l
      (.node p.1 ky vv r, p.2)
    else
      let p := insertRec k ((dim + 1) % k) key v r
      (.node l ky vv p.1, p.2)

/-- Public `insert(key, value)`; `treeSize` is incremented exactly when a
new node was allocated. -/
def insertPub (k : Nat) (key : Key) (v : Value) (T : KDT) : KDT :=
  let p := insertRec k 0 key v T.root
  { root := p.1, treeSize := T.treeSize + (if p.2 then 1 else 0) }

/-- `compareNode<DIM, std::less<>>`: the node winning the `compareKey`
comparison; a null node loses to any real node. -/
def compareNodeLt (d : Nat) : Option Entry → Option Entry → Option Entry
  | none, b => b
  | some a, none => some a
  | some a, some b => if cmpKeyLt d a.1 b.1 then some a else some b

/-- `compareNode<DIM, std::greater<>>`. -/
def compareNodeGt (d : Nat) : Option Entry → Option Entry → Option Entry
  | none, b => b
  | some a, none => some a
  | some a, some b => if cmpKeyGt d a.1 b.1 then some a else some b

/-- `findMin<DIM_CMP, DIM>(node)`: the extremum of the left subtree, of the
right subtree too when `DIM_CMP ≠ DIM` (the pruning), and the node itself. -/
def findMin (k dc : Nat) : Nat → Tree → Option Entry
  | _, .leaf => none
  | dim, .node l ky v r =>
    compareNodeLt dc
      (if dc ≠ dim then
        compareNodeLt dc (findMin k dc ((dim + 1) % k) l) (findMin k dc ((dim + 1) % k) r)
      else findMin k dc ((dim + 1) % k) l)
      (some (ky, v))

/-- `findMax<DIM_CMP, DIM>(node)`. -/
def findMax (k dc : Nat) : Nat → Tree → Option Entry
  | _, .leaf => none
  | dim, .node l ky v r =>
    compareNodeGt dc
      (if dc ≠ dim then
        compareNodeGt dc (findMax k dc ((dim + 1) % k) r) (findMax k dc ((dim + 1) % k) l)
      else findMax k dc ((dim + 1) % k) r)
      (some (ky, v))

/-- `findMinDynamic<DIM>(dim)`: dispatch the runtime dimension to the
matching compile-time instantiation.  The instantiation chain `DIM, DIM+1 %
k, ...` is finite in C++ because it cycles; it is modelled with a fuel
argument (the public wrapper passes fuel `k`, enough to reach `dim % k`). -/
def findMinDynamicRec (k : Nat) (t : Tree) : Nat → Nat → Nat → Option Entry
  | 0, _, _ => none
  | fuel + 1, dimc, dim =>
    let dim2 := if dim ≥ k then dim % k else dim
    if dim2 = dimc then findMin k dimc 0 t
    else findMinDynamicRec k t fuel ((dimc + 1) % k) dim2

/-- `findMaxDynamic<DIM>(dim)`. -/
def findMaxDynamicRec (k : Nat) (t : Tree) : Nat → Nat → Nat → Option Entry
  | 0, _, _ => none
  | fuel + 1, dimc, dim =>
    let dim2 := if dim ≥ k then dim % k else dim
    if dim2 = dimc then findMax k dimc 0 t
    else findMaxDynamicRec k t fuel ((dimc + 1) % k) dim2

/-- Public `findMin(size_t dim)` (runtime-dimension variant). -/
def findMinDyn (k : Nat) (dim : Nat) (T : KDT) : Option Entry :=
  findMinDynamicRec k T.root k 0 dim

/-- Public `findMax(size_t dim)` (runtime-dimension variant). -/
def findMaxDyn (k : Nat) (dim : Nat) (T : KDT) : Option Entry :=
  findMaxDynamicRec k T.root k 0 dim

/-- Public compile-time-dimension `findMin<DIM>()`: `findMin<DIM, 0>(root)`. -/
def findMinStatic (k : Nat) (dimc : Nat) (T : KDT) : Option Entry :=
  findMin k dimc 0 T.root

/-- Public compile-time-dimension `findMax<DIM>()`. -/
def findMaxStatic (k : Nat) (dimc : Nat) (T : KDT) : Option Entry :=
  findMax k dimc 0 T.root

/-- `erase<DIM>(node, key)`: returns the updated subtree together with
whether a node was actually deleted (the C++ signals the deletion by the
`treeSize--` in the childless case; the flag records exactly that event). -/
def eraseRec (k : Nat) : Nat → Tree → Key → Tree × Bool
  | _, .leaf, _ => (.leaf, false)
  | dim, .node l ky v r, key =>
    if key = ky then
      if l = .leaf && r = .leaf then (.leaf, true)
      else if r ≠ .leaf then
        match findMin k dim ((dim + 1) % k) r with
        | some m =>
          let p := eraseRec k ((dim + 1) % k) r m.1
          (.node l m.1 m.2 p.1, p.2)
        | none => (.node l ky v r, false)
      else
        match findMax k dim ((dim + 1) % k) l with
        | some m =>
          let p := eraseRec k ((dim + 1) % k) l m.1
          (.node p.1 m.1 m.2 r, p.2)
        | none => (.node l ky v r, false)
    else
      if strictLessKey dim key ky then
        let p := eraseRec k ((dim + 1) % k) l key
        (.node p.1 ky v r, p.2)
      else
        let p := eraseRec k ((dim + 1) % k) r key
        (.node l ky v p.1, p.2)

/-- Public `erase(const Key &)`.  The C++ discards the pointer returned by
`erase<0>(root, key)`; within states where the counter agrees with the
structure this only matters when the whole tree became empty, which the
`if (treeSize == 0) root = nullptr;` inside the childless case repairs —
modelled by the `if s = 0` below.  The returned Bool is `prevSize >
treeSize`. -/
def erasePub (k : Nat) (key : Key) (T : KDT) : KDT × Bool :=
  let p := eraseRec k 0 T.root key
  let s := T.treeSize - (if p.2 then 1 else 0)
  ({ root := if s = 0 then .leaf else p.1, treeSize := s }, decide (s < T.treeSize))

/-- `copyAll(root, parent)` (the parent argument only wires back-pointers,
which the value model represents implicitly). -/
def copyAll : Tree → Tree
  | .leaf => .leaf
  | .node l ky v r => .node (copyAll l) ky v (copyAll r)

/-- Copy construction / copy assignment. -/
def copyPub (T : KDT) : KDT := { root := copyAll T.root, treeSize := T.treeSize }

/-- `compareData<DIM>`: `compareKey<DIM, std::less<>>` on the keys of two
key-value pairs; the comparator handed to `nth_element`/`stable_sort`. -/
def cmpEntryLt (d : Nat) (a b : Entry) : Bool := cmpKeyLt d a.1 b.1

/-- The non-strict ordering used to run the sorts of the model: `a ≼ b` iff
`b` does not come strictly before `a` under `compareData<DIM>`.  Sorting
with it arranges the list ascending with respect to `compareData<DIM>`, and
stably so (`std::stable_sort` semantics). -/
def leD (d : Nat) (a b : Entry) : Prop := cmpEntryLt d b a = false

instance (d : Nat) : DecidableRel (leD d) :=
  fun a b => inferInstanceAs (Decidable (_ = false))

/-- `std::unique(v.rbegin(), v.rend(), key-equality)` followed by
`v.assign(it.base(), v.end())`: of every run of adjacent entries with equal
keys only the last one survives. -/
def dedupLast : List Entry → List Entry
  | [] => []
  | [x] => [x]
  | x :: y :: rest =>
    if x.1 = y.1 then dedupLast (y :: rest) else x :: dedupLast (y :: rest)

/-- `KDTree_helper<DIM>(v, parent)`: median partition (`nth_element` with
`compareData<DIM>` at index `(size - 1) / 2`, modelled by the sort as
explained in the header) and recursion on the two halves.  The extra fuel
argument only serves structural recursion: each recursive call works on a
strictly shorter list, so fuel `v.length` (what the constructor passes)
never runs out. -/
def KDTree_helper (k : Nat) : Nat → Nat → List Entry → Tree
  | 0, _, _ => .leaf
  | fuel + 1, dim, v =>
    if v = [] then .leaf
    else
      let s := List.insertionSort (leD dim) v
      let m := (v.length - 1) / 2
      Tree.node (KDTree_helper k fuel ((dim + 1) % k) (s.take m))
        (s.getD m ([], 0)).1 (s.getD m ([], 0)).2
        (KDTree_helper k fuel ((dim + 1) % k) (s.drop (m + 1)))

/-- The bulk constructor `KDTree(std::vector<std::pair<Key, Value>> v)`:
stable sort by `compareData<0>`, reverse-unique deduplication keeping the
last occurrence, then the balanced recursive build. -/
def bulkNew (k : Nat) (v : List Entry) : KDT :=
  let w := dedupLast (List.insertionSort (leD 0) v)
  { root := KDTree_helper k w.length 0 w, treeSize := w.length }

/-- One step of the parent chain: what the parent node looked like, and on
which side the current node hangs.  `lft ky v r` says the current node is
the left child of a parent holding `(ky, v)` with right subtree `r`. -/
inductive Crumb where
  | lft : Key → Value → Tree → Crumb
  | rgt : Tree → Key → Value → Crumb
deriving DecidableEq

/-- Reattach a node to its parent. -/
def rebuild : Crumb → Tree → Tree
  | .lft ky v r, t => .node t ky v r
  | .rgt l ky v, t => .node l ky v t

/-- Rebuild the whole tree from a focused subtree and its parent chain
(innermost crumb first). -/
def plug : List Crumb → Tree → Tree
  | [], t => t
  | c :: cs, t => plug cs (rebuild c t)

/-- An `Iterator`: either the end sentinel (`node == nullptr`) or a parent
chain together with the focused subtree. -/
abbrev Cursor := Option (List Crumb × Tree)

/-- `while (node->left) node = node->left;` recording the path walked. -/
def descendLeft : List Crumb → Tree → Cursor
  | _, .leaf => none
  | cs, .node .leaf ky v r => some (cs, .node .leaf ky v r)
  | cs, .node (.node a kb vb b) ky v r =>
    descendLeft (.lft ky v r :: cs) (.node a kb vb b)

/-- `while (node->right) node = node->right;` recording the path walked. -/
def descendRight : List Crumb → Tree → Cursor
  | _, .leaf => none
  | cs, .node l ky v .leaf => some (cs, .node l ky v .leaf)
  | cs, .node l ky v (.node a kb vb b) =>
    descendRight (.rgt l ky v :: cs) (.node a kb vb b)

/-- Public `begin()`: end for the empty tree, else the left-most node. -/
def begin (t : Tree) : Cursor := descendLeft [] t

/-- The upward loop of `Iterator::increment`: climb while the node we come
from is the parent's right child; stop at the first parent reached from its
left child (or fall off the root: end). -/
def walkUpRight : List Crumb → Tree → Cursor
  | [], _ => none
  | .lft ky v r :: cs, cur => some (cs, .node cur ky v r)
  | .rgt l ky v :: cs, cur => walkUpRight cs (.node l ky v cur)

/-- The upward loop of `Iterator::decrement` (mirror image). -/
def walkUpLeft : List Crumb → Tree → Cursor
  | [], _ => none
  | .rgt l ky v :: cs, cur => some (cs, .node l ky v cur)
  | .lft ky v r :: cs, cur => walkUpLeft cs (.node cur ky v r)

/-- `Iterator::increment`. -/
def inc : Cursor → Cursor
  | none => none
  | some (cs, .leaf) => none
  | some (cs, .node l ky v (.node a kb vb b)) =>
    descendLeft (.rgt l ky v :: cs) (.node a kb vb b)
  | some (cs, .node l ky v .leaf) => walkUpRight cs (.node l ky v .leaf)

/-- `Iterator::decrement`; from end it goes to the right-most node, and at
`begin()` it is an explicit no-op (the `*this == tree->begin()` guard). -/
def dec (t : Tree) : Cursor → Cursor
  | none => descendRight [] t
  | some (cs, .leaf) => some (cs, .leaf)
  | some (cs, .node (.node a kb vb b) ky v r) =>
    descendRight (.lft ky v r :: cs) (.node a kb vb b)
  | some (cs, .node .leaf ky v r) =>
    if some (cs, Tree.node .leaf ky v r) = begin t then some (cs, .node .leaf ky v r)
    else walkUpLeft cs (.node .leaf ky v r)

/-- A cursor actually referencing a node of tree `t` (or end).  Node
pointers handed out by the public interface always satisfy this. -/
def cursorGoodFor (t : Tree) : Cursor → Prop
  | none => True
  | some (cs, f) => plug cs f = t ∧ f ≠ .leaf

/-- Public `erase(Iterator)`.  The C++ moves the iterator to the parent
when the node is childless, recomputes the depth by walking the parent
chain, and calls `eraseDynamic<0>(node, depth % KeySize)` — whose return
value it DISCARDS.  For a childless node the deletion therefore never
reaches the parent's child pointer: the structure is modelled as unchanged
(the counter still drops), which is the defined-behaviour shadow of the
dangling pointer the C++ leaves behind.  For a node with children the
in-place mutations are visible from the root, so the subtree is replaced by
the result of `erase`. -/
def eraseByCursor (k : Nat) (T : KDT) : Cursor → KDT × Cursor
  | none => (T, none)
  | some (cs, .leaf) => (T, some (cs, .leaf))
  | some (cs, .node l ky v r) =>
    let p := eraseRec k (cs.length % k) (.node l ky v r) ky
    let s := T.treeSize - (if p.2 then 1 else 0)
    if l = .leaf ∧ r = .leaf then
      let newIt : Cursor := match cs with
        | [] => none
        | c :: rest => some (rest, rebuild c (.node l ky v r))
      ({ root := if s = 0 then .leaf else T.root, treeSize := s }, newIt)
    else
      ({ root := if s = 0 then .leaf else plug cs p.1, treeSize := s }, some (cs, p.1))

/-- The tree invariant exactly as the specification states it: at every
node, every key of the left subtree is STRICTLY smaller on the node's
active component, every key of the right subtree is at least as large. -/
def strictInvB (k : Nat) : Nat → Tree → Bool
  | _, .leaf => true
  | dim, .node l ky _ r =>
    ((inorder l).all fun e => comp e.1 dim < comp ky dim) &&
    ((inorder r).all fun e => comp ky dim ≤ comp e.1 dim) &&
    strictInvB k ((dim + 1) % k) l && strictInvB k ((dim + 1) % k) r

/-- The invariant the code actually maintains: the left-subtree bound is
only non-strict (`≤`). -/
def weakInvB (k : Nat) : Nat → Tree → Bool
  | _, .leaf => true
  | dim, .node l ky _ r =>
    ((inorder l).all fun e => comp e.1 dim ≤ comp ky dim) &&
    ((inorder r).all fun e => comp ky dim ≤ comp e.1 dim) &&
    weakInvB k ((dim + 1) % k) l && weakInvB k ((dim + 1) % k) r

/-- The specification's description of the node `begin()` must reference:
"the left-most node reachable from the root". -/
def spec_leftmost : Tree → Tree
  | .leaf => .leaf
  | .node .leaf ky v r => .node .leaf ky v r
  | .node (.node a kb vb b) _ _ _ => spec_leftmost (.node a kb vb b)

/-- Is this crumb a left turn? -/
def Crumb.isLft : Crumb → Bool
  | .lft _ _ _ => true
  | .rgt _ _ _ => false

/-- A cursor that is either end or focused on a real node (never on an
empty subtree); every cursor the iterator protocol produces is of this
shape. -/
def goodCur : Cursor → Prop
  | none => True
  | some (_, f) => f ≠ Tree.leaf

/-- The entries an in-order walk still owes after the focused subtree is
exhausted: for each ancestor reached from its left child, that ancestor
and its right subtree. -/
def upNext : List Crumb → List Entry
  | [] => []
  | .lft ky v r :: cs => (ky, v) :: inorder r ++ upNext cs
  | .rgt _ _ _ :: cs => upNext cs

/-- The entries from the cursor's current node (inclusive) to the end of
the forward traversal. -/
def rem : Cursor → List Entry
  | none => []
  | some (_, Tree.leaf) => []
  | some (cs, Tree.node _ ky v r) => (ky, v) :: inorder r ++ upNext cs

/-- The entries a backward walk still owes above the focus: for each
ancestor reached from its right child, that ancestor and its left subtree
(reversed). -/
def upPrev : List Crumb → List Entry
  | [] => []
  | .rgt l ky v :: cs => (ky, v) :: (inorder l).reverse ++ upPrev cs
  | .lft _ _ _ :: cs => upPrev cs

/-- The entries from the cursor's current node (inclusive) back to the
start of the traversal, in backward order. -/
def bem : Cursor → List Entry
  | none => []
  | some (_, Tree.leaf) => []
  | some (cs, Tree.node l ky v _) => (ky, v) :: (inorder l).reverse ++ upPrev cs

/-- The entries still to be visited when stepping backward from cursor `c`
of tree `t`: from end, everything in reverse; otherwise everything
strictly before the current node, backwards. -/
def afterB (t : Tree) : Cursor → List Entry
  | none => (inorder t).reverse
  | some (_, Tree.leaf) => []
  | some (cs, Tree.node l _ _ _) => (inorder l).reverse ++ upPrev cs

/-- The entries visited by `n` forward steps of `operator++` starting at
the given cursor (recording the node the cursor is on, then stepping). -/
def fwdList : Cursor → Nat → List Entry
  | _, 0 => []
  | none, _ + 1 => []
  | some (_, Tree.leaf), _ + 1 => []
  | some (cs, Tree.node l ky v r), n + 1 =>
    (ky, v) :: fwdList (inc (some (cs, Tree.node l ky v r))) n

/-- The entries visited by `n` backward steps of `operator--` starting at
the given cursor (stepping first, then recording the node reached). -/
def bwdList (t : Tree) : Cursor → Nat → List Entry
  | _, 0 => []
  | c, n + 1 =>
    match dec t c with
    | none => []
    | some (_, Tree.leaf) => []
    | some (cs, Tree.node l ky v r) =>
      (ky, v) :: bwdList t (some (cs, Tree.node l ky v r)) n

/-! ### Upsert (claim C4) -/

theorem findRec_insertRec (k : Nat) (key : Key) (v : Value) :
    ∀ (dim : Nat) (t : Tree),
      findRec k dim key (insertRec k dim key v t).1 = some (key, v) := by
  intro dim t
  induction t generalizing dim with
  | leaf => simp [insertRec, findRec]
  | node l ky vv r ihl ihr =>
    by_cases hk : ky = key
    · subst hk
      simp [insertRec, findRec]
    · by_cases hs : strictLessKey dim key ky = true
      · simp [insertRec, findRec, hk, hs, ihl]
      · simp [insertRec, findRec, hk, hs, ihr]

theorem insertRec_twice_flag (k : Nat) (key : Key) (v1 v2 : Value) :
    ∀ (dim : Nat) (t : Tree),
      (insertRec k dim key v2 (insertRec k dim key v1 t).1).2 = false := by
  intro dim t
  induction t generalizing dim with
  | leaf => simp [insertRec]
  | node l ky vv r ihl ihr =>
    by_cases hk : ky = key
    · subst hk
      simp [insertRec]
    · by_cases hs : strictLessKey dim key ky = true
      · simp [insertRec, hk, hs, ihl]
      · simp [insertRec, hk, hs, ihr]

/-- C4: inserting a key twice upserts: afterwards `find` returns the second
value, and the second `insert` leaves the size counter unchanged. -/
theorem C4_upsert (k : Nat) (key : Key) (v1 v2 : Value) (T : KDT) :
    findPub k key (insertPub k key v2 (insertPub k key v1 T)) = some (key, v2)
    ∧ (insertPub k key v2 (insertPub k key v1 T)).treeSize
      = (insertPub k key v1 T).treeSize := by
  constructor
  · simpa [findPub, insertPub] using findRec_insertRec k key v2 0 (insertPub k key v1 T).root
  · simp [insertPub, insertRec_twice_flag k key v1 v2 0 T.root]

/-! ### Extremum queries on the empty tree (claim C9) -/

theorem findMinDynamicRec_leaf (k : Nat) :
    ∀ (fuel dimc dim : Nat), findMinDynamicRec k Tree.leaf fuel dimc dim = none
  | 0, _, _ => rfl
  | fuel + 1, dimc, dim => by
    simp [findMinDynamicRec, findMin, findMinDynamicRec_leaf k fuel]

theorem findMaxDynamicRec_leaf (k : Nat) :
    ∀ (fuel dimc dim : Nat), findMaxDynamicRec k Tree.leaf fuel dimc dim = none
  | 0, _, _ => rfl
  | fuel + 1, dimc, dim => by
    simp [findMaxDynamicRec, findMax, findMaxDynamicRec_leaf k fuel]

/-- C9: on the empty tree `findMin` and `findMax` return the end cursor for
every dimension argument, in both the compile-time-dimension and the
runtime-dimension variants. -/
theorem C9_empty_extrema (k d : Nat) :
    findMinStatic k d emptyKDT = none ∧ findMaxStatic k d emptyKDT = none
    ∧ findMinDyn k d emptyKDT = none ∧ findMaxDyn k d emptyKDT = none := by
  refine ⟨rfl, rfl, ?_, ?_⟩
  · exact findMinDynamicRec_leaf k k 0 d
  · exact findMaxDynamicRec_leaf k k 0 d

/-! ### Decrement at begin is a no-op (claim C10) -/

theorem descendLeft_shape (t : Tree) (ht : t ≠ Tree.leaf) :
    ∀ cs : List Crumb, ∃ cs2 ky v r,
      descendLeft cs t = some (cs2, Tree.node .leaf ky v r) := by
  induction t with
  | leaf => exact absurd rfl ht
  | node l ky v r ihl ihr =>
    intro cs
    cases l with
    | leaf => exact ⟨cs, ky, v, r, rfl⟩
    | node a kb vb b =>
      obtain ⟨cs2, ky2, v2, r2, h⟩ := ihl (by simp) (Crumb.lft ky v r :: cs)
      exact ⟨cs2, ky2, v2, r2, h⟩

/-- C10: for a non-empty tree, decrementing a cursor equal to `begin()` is
a defined no-op: the cursor still equals `begin()`. -/
theorem C10_dec_begin (t : Tree) (ht : t ≠ Tree.leaf) :
    dec t (begin t) = begin t := by
  obtain ⟨cs2, ky, v, r, h⟩ := descendLeft_shape t ht []
  have hb : begin t = some (cs2, Tree.node .leaf ky v r) := h
  rw [hb, dec]
  simp [hb]

/-- Witness for C10 at a concrete one-node tree. -/
theorem C10_dec_begin_witness :
    dec (Tree.node .leaf [0] 0 .leaf) (begin (Tree.node .leaf [0] 0 .leaf))
      = begin (Tree.node .leaf [0] 0 .leaf) :=
  C10_dec_begin (Tree.node .leaf [0] 0 .leaf) (by decide)

/-! ### Comparator facts -/

theorem cmpKeyLt_true_le {d : Nat} {a b : Key} (h : cmpKeyLt d a b = true) :
    comp a d ≤ comp b d := by
  unfold cmpKeyLt at h
  by_cases he : comp a d = comp b d
  · exact le_of_eq he
  · simp only [ne_eq, he, not_false_eq_true, if_true, decide_eq_true_eq] at h
    exact Nat.le_of_lt h

theorem cmpKeyLt_false_le {d : Nat} {a b : Key} (h : cmpKeyLt d a b = false) :
    comp b d ≤ comp a d := by
  unfold cmpKeyLt at h
  by_cases he : comp a d = comp b d
  · exact le_of_eq he.symm
  · simp only [ne_eq, he, not_false_eq_true, if_true, decide_eq_false_iff_not] at h
    omega

theorem cmpKeyGt_true_le {d : Nat} {a b : Key} (h : cmpKeyGt d a b = true) :
    comp b d ≤ comp a d := by
  unfold cmpKeyGt at h
  by_cases he : comp a d = comp b d
  · exact le_of_eq he.symm
  · simp only [ne_eq, he, not_false_eq_true, if_true, decide_eq_true_eq] at h
    exact Nat.le_of_lt h

theorem cmpKeyGt_false_le {d : Nat} {a b : Key} (h : cmpKeyGt d a b = false) :
    comp a d ≤ comp b d := by
  unfold cmpKeyGt at h
  by_cases he : comp a d = comp b d
  · exact le_of_eq he
  · simp only [ne_eq, he, not_false_eq_true, if_true, decide_eq_false_iff_not] at h
    omega

theorem compareNodeLt_isSome_snd {d : Nat} (a : Option Entry) (eb : Entry) :
    ∃ w, compareNodeLt d a (some eb) = some w := by
  cases a with
  | none => exact ⟨eb, rfl⟩
  | some ea =>
    by_cases h : cmpKeyLt d ea.1 eb.1 = true
    · exact ⟨ea, by simp [compareNodeLt, h]⟩
    · exact ⟨eb, by simp [compareNodeLt, h]⟩

theorem compareNodeLt_mem {d : Nat} {a b : Option Entry} {w : Entry}
    (h : compareNodeLt d a b = some w) : a = some w ∨ b = some w := by
  cases a with
  | none => exact Or.inr h
  | some ea =>
    cases b with
    | none => exact Or.inl h
    | some eb =>
      by_cases hc : cmpKeyLt d ea.1 eb.1 = true
      · simp only [compareNodeLt, hc, if_true] at h
        exact Or.inl h
      · simp only [compareNodeLt, hc, if_false, Bool.false_eq_true] at h
        exact Or.inr h

theorem compareNodeLt_le_fst {d : Nat} {ea : Entry} {b : Option Entry} {w : Entry}
    (h : compareNodeLt d (some ea) b = some w) : comp w.1 d ≤ comp ea.1 d := by
  cases b with
  | none =>
    simp only [compareNodeLt, Option.some_inj] at h
    exact h ▸ le_refl _
  | some eb =>
    by_cases hc : cmpKeyLt d ea.1 eb.1 = true
    · simp only [compareNodeLt, hc, if_true, Option.some_inj] at h
      exact h ▸ le_refl _
    · simp only [compareNodeLt, hc, if_false, Bool.false_eq_true, Option.some_inj] at h
      subst h
      exact cmpKeyLt_false_le (by simpa using hc)

theorem compareNodeLt_le_snd {d : Nat} {a : Option Entry} {eb : Entry} {w : Entry}
    (h : compareNodeLt d a (some eb) = some w) : comp w.1 d ≤ comp eb.1 d := by
  cases a with
  | none =>
    simp only [compareNodeLt, Option.some_inj] at h
    exact h ▸ le_refl _
  | some ea =>
    by_cases hc : cmpKeyLt d ea.1 eb.1 = true
    · simp only [compareNodeLt, hc, if_true, Option.some_inj] at h
      subst h
      exact cmpKeyLt_true_le hc
    · simp only [compareNodeLt, hc, if_false, Bool.false_eq_true, Option.some_inj] at h
      exact h ▸ le_refl _

theorem compareNodeGt_isSome_snd {d : Nat} (a : Option Entry) (eb : Entry) :
    ∃ w, compareNodeGt d a (some eb) = some w := by
  cases a with
  | none => exact ⟨eb, rfl⟩
  | some ea =>
    by_cases h : cmpKeyGt d ea.1 eb.1 = true
    · exact ⟨ea, by simp [compareNodeGt, h]⟩
    · exact ⟨eb, by simp [compareNodeGt, h]⟩

theorem compareNodeGt_mem {d : Nat} {a b : Option Entry} {w : Entry}
    (h : compareNodeGt d a b = some w) : a = some w ∨ b = some w := by
  cases a with
  | none => exact Or.inr h
  | some ea =>
    cases b with
    | none => exact Or.inl h
    | some eb =>
      by_cases hc : cmpKeyGt d ea.1 eb.1 = true
      · simp only [compareNodeGt, hc, if_true] at h
        exact Or.inl h
      · simp only [compareNodeGt, hc, if_false, Bool.false_eq_true] at h
        exact Or.inr h

theorem compareNodeGt_ge_fst {d : Nat} {ea : Entry} {b : Option Entry} {w : Entry}
    (h : compareNodeGt d (some ea) b = some w) : comp ea.1 d ≤ comp w.1 d := by
  cases b with
  | none =>
    simp only [compareNodeGt, Option.some_inj] at h
    exact h ▸ le_refl _
  | some eb =>
    by_cases hc : cmpKeyGt d ea.1 eb.1 = true
    · simp only [compareNodeGt, hc, if_true, Option.some_inj] at h
      exact h ▸ le_refl _
    · simp only [compareNodeGt, hc, if_false, Bool.false_eq_true, Option.some_inj] at h
      subst h
      exact cmpKeyGt_false_le (by simpa using hc)

theorem compareNodeGt_ge_snd {d : Nat} {a : Option Entry} {eb : Entry} {w : Entry}
    (h : compareNodeGt d a (some eb) = some w) : comp eb.1 d ≤ comp w.1 d := by
  cases a with
  | none =>
    simp only [compareNodeGt, Option.some_inj] at h
    exact h ▸ le_refl _
  | some ea =>
    by_cases hc : cmpKeyGt d ea.1 eb.1 = true
    · simp only [compareNodeGt, hc, if_true, Option.some_inj] at h
      subst h
      exact cmpKeyGt_true_le hc
    · simp only [compareNodeGt, hc, if_false, Bool.false_eq_true, Option.some_inj] at h
      exact h ▸ le_refl _

/-! ### The weak invariant, unfolded -/

theorem weakInv_node_iff {k dim : Nat} {l r : Tree} {ky : Key} {v : Value} :
    weakInvB k dim (Tree.node l ky v r) = true ↔
      (∀ e ∈ inorder l, comp e.1 dim ≤ comp ky dim)
      ∧ (∀ e ∈ inorder r, comp ky dim ≤ comp e.1 dim)
      ∧ weakInvB k ((dim + 1) % k) l = true
      ∧ weakInvB k ((dim + 1) % k) r = true := by
  simp [weakInvB, List.all_eq_true, and_assoc]

/-! ### Correctness of the extremum queries -/

theorem findMin_eq_none {k dc dim : Nat} {t : Tree} :
    findMin k dc dim t = none ↔ t = Tree.leaf := by
  constructor
  · intro h
    cases t with
    | leaf => rfl
    | node l ky v r =>
      obtain ⟨w, hw⟩ := compareNodeLt_isSome_snd
        (d := dc)
        (if dc ≠ dim then
          compareNodeLt dc (findMin k dc ((dim + 1) % k) l) (findMin k dc ((dim + 1) % k) r)
        else findMin k dc ((dim + 1) % k) l) (ky, v)
      rw [show findMin k dc dim (Tree.node l ky v r)
        = compareNodeLt dc
          (if dc ≠ dim then
            compareNodeLt dc (findMin k dc ((dim + 1) % k) l) (findMin k dc ((dim + 1) % k) r)
          else findMin k dc ((dim + 1) % k) l) (some (ky, v)) from rfl, hw] at h
      exact absurd h (by simp)
  · intro h; subst h; rfl

theorem findMax_eq_none {k dc dim : Nat} {t : Tree} :
    findMax k dc dim t = none ↔ t = Tree.leaf := by
  constructor
  · intro h
    cases t with
    | leaf => rfl
    | node l ky v r =>
      obtain ⟨w, hw⟩ := compareNodeGt_isSome_snd
        (d := dc)
        (if dc ≠ dim then
          compareNodeGt dc (findMax k dc ((dim + 1) % k) r) (findMax k dc ((dim + 1) % k) l)
        else findMax k dc ((dim + 1) % k) r) (ky, v)
      rw [show findMax k dc dim (Tree.node l ky v r)
        = compareNodeGt dc
          (if dc ≠ dim then
            compareNodeGt dc (findMax k dc ((dim + 1) % k) r) (findMax k dc ((dim + 1) % k) l)
          else findMax k dc ((dim + 1) % k) r) (some (ky, v)) from rfl, hw] at h
      exact absurd h (by simp)
  · intro h; subst h; rfl

theorem findMin_mem {k dc : Nat} :
    ∀ {t : Tree} {dim : Nat} {m : Entry},
      findMin k dc dim t = some m → m ∈ inorder t := by
  intro t
  induction t with
  | leaf => intro dim m hm; exact absurd hm (by simp [findMin])
  | node l ky v r ihl ihr =>
    intro dim m hm
    rw [show findMin k dc dim (Tree.node l ky v r)
      = compareNodeLt dc
        (if dc ≠ dim then
          compareNodeLt dc (findMin k dc ((dim + 1) % k) l) (findMin k dc ((dim + 1) % k) r)
        else findMin k dc ((dim + 1) % k) l) (some (ky, v)) from rfl] at hm
    rcases compareNodeLt_mem hm with h1 | h1
    · by_cases hd : dc ≠ dim
      · rw [if_pos hd] at h1
        rcases compareNodeLt_mem h1 with h2 | h2
        · exact by simp [inorder, ihl h2]
        · exact by simp [inorder, ihr h2]
      · rw [if_neg hd] at h1
        exact by simp [inorder, ihl h1]
    · simp only [Option.some_inj] at h1
      subst h1
      simp [inorder]

theorem findMax_mem {k dc : Nat} :
    ∀ {t : Tree} {dim : Nat} {m : Entry},
      findMax k dc dim t = some m → m ∈ inorder t := by
  intro t
  induction t with
  | leaf => intro dim m hm; exact absurd hm (by simp [findMax])
  | node l ky v r ihl ihr =>
    intro dim m hm
    rw [show findMax k dc dim (Tree.node l ky v r)
      = compareNodeGt dc
        (if dc ≠ dim then
          compareNodeGt dc (findMax k dc ((dim + 1) % k) r) (findMax k dc ((dim + 1) % k) l)
        else findMax k dc ((dim + 1) % k) r) (some (ky, v)) from rfl] at hm
    rcases compareNodeGt_mem hm with h1 | h1
    · by_cases hd : dc ≠ dim
      · rw [if_pos hd] at h1
        rcases compareNodeGt_mem h1 with h2 | h2
        · exact by simp [inorder, ihr h2]
        · exact by simp [inorder, ihl h2]
      · rw [if_neg hd] at h1
        exact by simp [inorder, ihr h1]
    · simp only [Option.some_inj] at h1
      subst h1
      simp [inorder]

theorem findMin_le {k dc : Nat} :
    ∀ {t : Tree} {dim : Nat} {m : Entry}, weakInvB k dim t = true →
      findMin k dc dim t = some m →
      ∀ e ∈ inorder t, comp m.1 dc ≤ comp e.1 dc := by
  intro t
  induction t with
  | leaf => intro dim m _ hm; exact absurd hm (by simp [findMin])
  | node l ky v r ihl ihr =>
    intro dim m hInv hm e he
    rw [weakInv_node_iff] at hInv
    obtain ⟨hL, hR, hIl, hIr⟩ := hInv
    rw [show findMin k dc dim (Tree.node l ky v r)
      = compareNodeLt dc
        (if dc ≠ dim then
          compareNodeLt dc (findMin k dc ((dim + 1) % k) l) (findMin k dc ((dim + 1) % k) r)
        else findMin k dc ((dim + 1) % k) l) (some (ky, v)) from rfl] at hm
    have hnode : comp m.1 dc ≤ comp ky dc := compareNodeLt_le_snd hm
    simp only [inorder, List.mem_append, List.mem_cons] at he
    rcases he with heL | heC | heR
    · -- e sits in the left subtree
      cases hm0 : findMin k dc ((dim + 1) % k) l with
      | none =>
        rw [findMin_eq_none.mp hm0] at heL
        exact absurd heL (by simp [inorder])
      | some em0 =>
        have h0 : comp em0.1 dc ≤ comp e.1 dc := ihl hIl hm0 e heL
        by_cases hd : dc ≠ dim
        · rw [if_pos hd, hm0] at hm
          obtain ⟨em1, hm1⟩ := compareNodeLt_isSome_snd
            (d := dc) (compareNodeLt dc (some em0) (findMin k dc ((dim + 1) % k) r)) (ky, v)
          cases hmm : compareNodeLt dc (some em0) (findMin k dc ((dim + 1) % k) r) with
          | none => exact absurd hmm (by
              cases hr : findMin k dc ((dim + 1) % k) r with
              | none => simp [compareNodeLt, hr]
              | some emr =>
                rcases compareNodeLt_isSome_snd (d := dc) (some em0) emr with ⟨w, hw⟩
                simp [hw])
          | some em2 =>
            rw [hmm] at hm
            have ha : comp m.1 dc ≤ comp em2.1 dc := compareNodeLt_le_fst hm
            have hb : comp em2.1 dc ≤ comp em0.1 dc := compareNodeLt_le_fst hmm
            omega
        · rw [if_neg hd, hm0] at hm
          have ha : comp m.1 dc ≤ comp em0.1 dc := compareNodeLt_le_fst hm
          omega
    · subst heC
      exact hnode
    · -- e sits in the right subtree
      by_cases hd : dc ≠ dim
      · cases hmr : findMin k dc ((dim + 1) % k) r with
        | none =>
          rw [findMin_eq_none.mp hmr] at heR
          exact absurd heR (by simp [inorder])
        | some emr =>
          have h0 : comp emr.1 dc ≤ comp e.1 dc := ihr hIr hmr e heR
          rw [if_pos hd, hmr] at hm
          cases hmm : compareNodeLt dc (findMin k dc ((dim + 1) % k) l) (some emr) with
          | none =>
            obtain ⟨w, hw⟩ := compareNodeLt_isSome_snd
              (d := dc) (findMin k dc ((dim + 1) % k) l) emr
            rw [hw] at hmm
            exact absurd hmm (by simp)
          | some em2 =>
            rw [hmm] at hm
            have ha : comp m.1 dc ≤ comp em2.1 dc := compareNodeLt_le_fst hm
            have hb : comp em2.1 dc ≤ comp emr.1 dc := compareNodeLt_le_snd hmm
            omega
      · have hdd : dc = dim := by simpa using hd
        subst hdd
        have h1 : comp ky dc ≤ comp e.1 dc := hR e heR
        omega

theorem findMax_ge {k dc : Nat} :
    ∀ {t : Tree} {dim : Nat} {m : Entry}, weakInvB k dim t = true →
      findMax k dc dim t = some m →
      ∀ e ∈ inorder t, comp e.1 dc ≤ comp m.1 dc := by
  intro t
  induction t with
  | leaf => intro dim m _ hm; exact absurd hm (by simp [findMax])
  | node l ky v r ihl ihr =>
    intro dim m hInv hm e he
    rw [weakInv_node_iff] at hInv
    obtain ⟨hL, hR, hIl, hIr⟩ := hInv
    rw [show findMax k dc dim (Tree.node l ky v r)
      = compareNodeGt dc
        (if dc ≠ dim then
          compareNodeGt dc (findMax k dc ((dim + 1) % k) r) (findMax k dc ((dim + 1) % k) l)
        else findMax k dc ((dim + 1) % k) r) (some (ky, v)) from rfl] at hm
    have hnode : comp ky dc ≤ comp m.1 dc := compareNodeGt_ge_snd hm
    simp only [inorder, List.mem_append, List.mem_cons] at he
    rcases he with heL | heC | heR
    · -- e sits in the left subtree
      by_cases hd : dc ≠ dim
      · cases hml : findMax k dc ((dim + 1) % k) l with
        | none =>
          rw [findMax_eq_none.mp hml] at heL
          exact absurd heL (by simp [inorder])
        | some eml =>
          have h0 : comp e.1 dc ≤ comp eml.1 dc := ihl hIl hml e heL
          rw [if_pos hd, hml] at hm
          cases hmm : compareNodeGt dc (findMax k dc ((dim + 1) % k) r) (some eml) with
          | none =>
            obtain ⟨w, hw⟩ := compareNodeGt_isSome_snd
              (d := dc) (findMax k dc ((dim + 1) % k) r) eml
            rw [hw] at hmm
            exact absurd hmm (by simp)
          | some em2 =>
            rw [hmm] at hm
            have ha : comp em2.1 dc ≤ comp m.1 dc := compareNodeGt_ge_fst hm
            have hb : comp eml.1 dc ≤ comp em2.1 dc := compareNodeGt_ge_snd hmm
            omega
      · have hdd : dc = dim := by simpa using hd
        subst hdd
        have h1 : comp e.1 dc ≤ comp ky dc := hL e heL
        omega
    · subst heC
      exact hnode
    · -- e sits in the right subtree
      cases hm0 : findMax k dc ((dim + 1) % k) r with
      | none =>
        rw [findMax_eq_none.mp hm0] at heR
        exact absurd heR (by simp [inorder])
      | some em0 =>
        have h0 : comp e.1 dc ≤ comp em0.1 dc := ihr hIr hm0 e heR
        by_cases hd : dc ≠ dim
        · rw [if_pos hd, hm0] at hm
          cases hmm : compareNodeGt dc (some em0) (findMax k dc ((dim + 1) % k) l) with
          | none => exact absurd hmm (by
              cases hl : findMax k dc ((dim + 1) % k) l with
              | none => simp [compareNodeGt, hl]
              | some eml =>
                rcases compareNodeGt_isSome_snd (d := dc) (some em0) eml with ⟨w, hw⟩
                simp [hw])
          | some em2 =>
            rw [hmm] at hm
            have ha : comp em2.1 dc ≤ comp m.1 dc := compareNodeGt_ge_fst hm
            have hb : comp em0.1 dc ≤ comp em2.1 dc := compareNodeGt_ge_fst hmm
            omega
        · rw [if_neg hd, hm0] at hm
          have ha : comp em0.1 dc ≤ comp m.1 dc := compareNodeGt_ge_fst hm
          omega

/-! ### Order facts about the lexicographic comparison -/

theorem lexLt_asymm : ∀ {a b : Key}, lexLt a b = true → lexLt b a = false := by
  intro a
  induction a with
  | nil =>
    intro b h
    cases b with
    | nil => simp [lexLt] at h
    | cons y ys => simp [lexLt]
  | cons x xs ih =>
    intro b h
    cases b with
    | nil => simp [lexLt] at h
    | cons y ys =>
      simp only [lexLt] at h ⊢
      by_cases h1 : x < y
      · have h2 : ¬ y < x := by omega
        simp [h1, h2]
      · by_cases h2 : y < x
        · simp [h1, h2] at h
        · simp only [h1, h2, if_false] at h ⊢
          exact ih h

theorem lexLt_conn : ∀ {a b : Key}, lexLt a b = false → lexLt b a = false → a = b := by
  intro a
  induction a with
  | nil =>
    intro b h1 _
    cases b with
    | nil => rfl
    | cons y ys => simp [lexLt] at h1
  | cons x xs ih =>
    intro b h1 h2
    cases b with
    | nil => simp [lexLt] at h2
    | cons y ys =>
      simp only [lexLt] at h1 h2
      by_cases hxy : x < y
      · simp [hxy] at h1
      · by_cases hyx : y < x
        · simp [hxy, hyx] at h2
        · simp only [hxy, hyx, if_false] at h1 h2
          have hx : x = y := by omega
          rw [hx, ih h1 h2]

theorem lexLt_trans : ∀ {a b c : Key},
    lexLt a b = true → lexLt b c = true → lexLt a c = true := by
  intro a
  induction a with
  | nil =>
    intro b c h1 h2
    cases b with
    | nil => simp [lexLt] at h1
    | cons y ys =>
      cases c with
      | nil => simp [lexLt] at h2
      | cons z zs => simp [lexLt]
  | cons x xs ih =>
    intro b c h1 h2
    cases b with
    | nil => simp [lexLt] at h1
    | cons y ys =>
      cases c with
      | nil => simp [lexLt] at h2
      | cons z zs =>
        simp only [lexLt] at h1 h2 ⊢
        by_cases hxy : x < y
        · by_cases hyz : y < z
          · have : x < z := by omega
            simp [this]
          · by_cases hzy : z < y
            · simp [hyz, hzy] at h2
            · have : x < z := by omega
              simp [this]
        · by_cases hyx : y < x
          · simp [hxy, hyx] at h1
          · simp only [hxy, hyx, if_false] at h1
            by_cases hyz : y < z
            · have : x < z := by omega
              simp [this]
            · by_cases hzy : z < y
              · simp [hyz, hzy] at h2
              · simp only [hyz, hzy, if_false] at h2
                have hxz : ¬ x < z := by omega
                have hzx : ¬ z < x := by omega
                simp only [hxz, hzx, if_false]
                exact ih h1 h2

/-! ### Order facts about `compareKey` -/

theorem cmpKeyLt_asymm {d : Nat} {a b : Key} (h : cmpKeyLt d a b = true) :
    cmpKeyLt d b a = false := by
  unfold cmpKeyLt at h ⊢
  by_cases he : comp a d = comp b d
  · simp only [ne_eq, he, not_true_eq_false, if_false] at h
    simp [he, lexLt_asymm h]
  · simp only [ne_eq, he, not_false_eq_true, if_true, decide_eq_true_eq] at h
    have h2 : ¬ comp b d = comp a d := by omega
    simp only [ne_eq, h2, not_false_eq_true, if_true, decide_eq_false_iff_not]
    omega

theorem cmpKeyLt_conn {d : Nat} {a b : Key} (h1 : cmpKeyLt d a b = false)
    (h2 : cmpKeyLt d b a = false) : a = b := by
  unfold cmpKeyLt at h1 h2
  by_cases he : comp a d = comp b d
  · rw [if_neg (by omega : ¬ comp a d ≠ comp b d)] at h1
    rw [if_neg (by omega : ¬ comp b d ≠ comp a d)] at h2
    exact lexLt_conn h1 h2
  · simp only [ne_eq, he, not_false_eq_true, if_true, decide_eq_false_iff_not] at h1
    rw [if_pos (by omega : comp b d ≠ comp a d)] at h2
    simp only [decide_eq_false_iff_not] at h2
    exact absurd (by omega : comp a d = comp b d) he

theorem cmpKeyLt_trans {d : Nat} {a b c : Key} (h1 : cmpKeyLt d a b = true)
    (h2 : cmpKeyLt d b c = true) : cmpKeyLt d a c = true := by
  unfold cmpKeyLt at h1 h2 ⊢
  by_cases hab : comp a d = comp b d
  · rw [if_neg (by omega : ¬ comp a d ≠ comp b d)] at h1
    by_cases hbc : comp b d = comp c d
    · rw [if_neg (by omega : ¬ comp b d ≠ comp c d)] at h2
      rw [if_neg (by omega : ¬ comp a d ≠ comp c d)]
      exact lexLt_trans h1 h2
    · rw [if_pos (by omega : comp b d ≠ comp c d)] at h2
      simp only [decide_eq_true_eq] at h2
      rw [if_pos (by omega : comp a d ≠ comp c d)]
      simp only [decide_eq_true_eq]
      omega
  · rw [if_pos (by omega : comp a d ≠ comp b d)] at h1
    simp only [decide_eq_true_eq] at h1
    by_cases hbc : comp b d = comp c d
    · rw [if_pos (by omega : comp a d ≠ comp c d)]
      simp only [decide_eq_true_eq]
      omega
    · rw [if_pos (by omega : comp b d ≠ comp c d)] at h2
      simp only [decide_eq_true_eq] at h2
      rw [if_pos (by omega : comp a d ≠ comp c d)]
      simp only [decide_eq_true_eq]
      omega

theorem leD_total (d : Nat) : ∀ a b : Entry, leD d a b ∨ leD d b a := by
  intro a b
  unfold leD cmpEntryLt
  by_cases h : cmpKeyLt d b.1 a.1 = true
  · exact Or.inr (cmpKeyLt_asymm h)
  · exact Or.inl (by simpa using h)

theorem leD_trans (d : Nat) :
    ∀ a b c : Entry, leD d a b → leD d b c → leD d a c := by
  intro a b c hab hbc
  unfold leD cmpEntryLt at hab hbc ⊢
  by_cases hca : cmpKeyLt d c.1 a.1 = true
  · by_cases hN : cmpKeyLt d a.1 b.1 = true
    · exact absurd (cmpKeyLt_trans hca hN) (by simpa using hbc)
    · have hba : a.1 = b.1 := cmpKeyLt_conn (by simpa using hN) hab
      rw [hba] at hca
      exact absurd hca (by simpa using hbc)
  · simpa using hca

/-! ### Insert preserves the weak invariant -/

theorem insertRec_mem (k : Nat) (key : Key) (v : Value) :
    ∀ {t : Tree} {dim : Nat} {e : Entry},
      e ∈ inorder (insertRec k dim key v t).1 → e ∈ inorder t ∨ e = (key, v) := by
  intro t
  induction t with
  | leaf =>
    intro dim e he
    simp only [insertRec, inorder, List.nil_append, List.mem_singleton] at he
    exact Or.inr he
  | node l ky vv r ihl ihr =>
    intro dim e he
    by_cases hk : ky = key
    · subst hk
      simp only [insertRec, if_pos rfl] at he
      simp only [inorder, List.mem_append, List.mem_cons] at he
      rcases he with h | h | h
      · exact Or.inl (by simp [inorder, h])
      · exact Or.inr h
      · exact Or.inl (by simp [inorder, h])
    · by_cases hs : strictLessKey dim key ky = true
      · simp only [insertRec, hk, if_false, hs, if_true] at he
        simp only [inorder, List.mem_append, List.mem_cons] at he
        rcases he with h | h | h
        · rcases ihl h with h2 | h2
          · exact Or.inl (by simp [inorder, h2])
          · exact Or.inr h2
        · exact Or.inl (by simp [inorder, h])
        · exact Or.inl (by simp [inorder, h])
      · simp only [insertRec, hk, if_false, hs, Bool.false_eq_true] at he
        simp only [inorder, List.mem_append, List.mem_cons] at he
        rcases he with h | h | h
        · exact Or.inl (by simp [inorder, h])
        · exact Or.inl (by simp [inorder, h])
        · rcases ihr h with h2 | h2
          · exact Or.inl (by simp [inorder, h2])
          · exact Or.inr h2

theorem insertRec_inv (k : Nat) (key : Key) (v : Value) :
    ∀ {t : Tree} {dim : Nat}, weakInvB k dim t = true →
      weakInvB k dim (insertRec k dim key v t).1 = true := by
  intro t
  induction t with
  | leaf =>
    intro dim _
    simp [insertRec, weakInvB, inorder]
  | node l ky vv r ihl ihr =>
    intro dim hInv
    rw [weakInv_node_iff] at hInv
    obtain ⟨hL, hR, hIl, hIr⟩ := hInv
    by_cases hk : ky = key
    · subst hk
      simp only [insertRec, if_pos rfl]
      exact weakInv_node_iff.mpr ⟨hL, hR, hIl, hIr⟩
    · by_cases hs : strictLessKey dim key ky = true
      · have hlt : comp key dim < comp ky dim := by
          simpa [strictLessKey] using hs
        simp only [insertRec, hk, if_false, hs, if_true]
        apply weakInv_node_iff.mpr
        refine ⟨?_, hR, ihl hIl, hIr⟩
        intro e he
        rcases insertRec_mem k key v he with h | h
        · exact hL e h
        · rw [h]
          exact Nat.le_of_lt hlt
      · have hge : comp ky dim ≤ comp key dim := by
          simp only [strictLessKey, decide_eq_true_eq] at hs
          omega
        simp only [insertRec, hk, if_false, hs, Bool.false_eq_true]
        apply weakInv_node_iff.mpr
        refine ⟨hL, ?_, hIl, ihr hIr⟩
        intro e he
        rcases insertRec_mem k key v he with h | h
        · exact hR e h
        · rw [h]
          exact hge

/-! ### Erase preserves the weak invariant -/

theorem eraseRec_subset (k : Nat) :
    ∀ {t : Tree} {dim : Nat} {key : Key} {e : Entry},
      e ∈ inorder (eraseRec k dim t key).1 → e ∈ inorder t := by
  intro t
  induction t with
  | leaf => intro dim key e he; simpa [eraseRec, inorder] using he
  | node l ky v r ihl ihr =>
    intro dim key e he
    by_cases hk : key = ky
    · subst hk
      by_cases hr : r = Tree.leaf
      · subst hr
        by_cases hl : l = Tree.leaf
        · subst hl
          simp [eraseRec, inorder] at he
        · cases hfm : findMax k dim ((dim + 1) % k) l with
          | none =>
            rw [findMax_eq_none.mp hfm] at hl
            exact absurd rfl hl
          | some m =>
            have heq : eraseRec k dim (Tree.node l key v Tree.leaf) key
                = (Tree.node (eraseRec k ((dim + 1) % k) l m.1).1 m.1 m.2 Tree.leaf,
                   (eraseRec k ((dim + 1) % k) l m.1).2) := by
              simp [eraseRec, hl, hfm]
            rw [heq] at he
            simp only [inorder, List.mem_append, List.mem_cons, List.not_mem_nil,
              or_false] at he ⊢
            rcases he with h | h
            · exact Or.inl (ihl h)
            · rw [h]
              exact Or.inl (findMax_mem hfm)
      · cases hfm : findMin k dim ((dim + 1) % k) r with
        | none =>
          rw [findMin_eq_none.mp hfm] at hr
          exact absurd rfl hr
        | some m =>
          have heq : eraseRec k dim (Tree.node l key v r) key
              = (Tree.node l m.1 m.2 (eraseRec k ((dim + 1) % k) r m.1).1,
                 (eraseRec k ((dim + 1) % k) r m.1).2) := by
            simp [eraseRec, hr, hfm]
          rw [heq] at he
          simp only [inorder, List.mem_append, List.mem_cons] at he ⊢
          rcases he with h | h | h
          · exact Or.inl h
          · rw [h]
            exact Or.inr (Or.inr (findMin_mem hfm))
          · exact Or.inr (Or.inr (ihr h))
    · by_cases hs : strictLessKey dim key ky = true
      · have heq : eraseRec k dim (Tree.node l ky v r) key
            = (Tree.node (eraseRec k ((dim + 1) % k) l key).1 ky v r,
               (eraseRec k ((dim + 1) % k) l key).2) := by
          simp [eraseRec, hk, hs]
        rw [heq] at he
        simp only [inorder, List.mem_append, List.mem_cons] at he ⊢
        rcases he with h | h | h
        · exact Or.inl (ihl h)
        · exact Or.inr (Or.inl h)
        · exact Or.inr (Or.inr h)
      · have heq : eraseRec k dim (Tree.node l ky v r) key
            = (Tree.node l ky v (eraseRec k ((dim + 1) % k) r key).1,
               (eraseRec k ((dim + 1) % k) r key).2) := by
          simp [eraseRec, hk, hs]
        rw [heq] at he
        simp only [inorder, List.mem_append, List.mem_cons] at he ⊢
        rcases he with h | h | h
        · exact Or.inl h
        · exact Or.inr (Or.inl h)
        · exact Or.inr (Or.inr (ihr h))

theorem eraseRec_inv (k : Nat) :
    ∀ {t : Tree} {dim : Nat} {key : Key}, weakInvB k dim t = true →
      weakInvB k dim (eraseRec k dim t key).1 = true := by
  intro t
  induction t with
  | leaf => intro dim key _; simp [eraseRec, weakInvB]
  | node l ky v r ihl ihr =>
    intro dim key hInv
    rw [weakInv_node_iff] at hInv
    obtain ⟨hL, hR, hIl, hIr⟩ := hInv
    by_cases hk : key = ky
    · subst hk
      by_cases hr : r = Tree.leaf
      · subst hr
        by_cases hl : l = Tree.leaf
        · subst hl
          simp [eraseRec, weakInvB]
        · cases hfm : findMax k dim ((dim + 1) % k) l with
          | none =>
            rw [findMax_eq_none.mp hfm] at hl
            exact absurd rfl hl
          | some m =>
            have heq : eraseRec k dim (Tree.node l key v Tree.leaf) key
                = (Tree.node (eraseRec k ((dim + 1) % k) l m.1).1 m.1 m.2 Tree.leaf,
                   (eraseRec k ((dim + 1) % k) l m.1).2) := by
              simp [eraseRec, hl, hfm]
            rw [heq]
            apply weakInv_node_iff.mpr
            have hmax : ∀ e ∈ inorder l, comp e.1 dim ≤ comp m.1 dim :=
              findMax_ge hIl hfm
            refine ⟨?_, ?_, ihl hIl, by simp [weakInvB]⟩
            · intro e he
              exact hmax e (eraseRec_subset k he)
            · intro e he
              simp [inorder] at he
      · cases hfm : findMin k dim ((dim + 1) % k) r with
        | none =>
          rw [findMin_eq_none.mp hfm] at hr
          exact absurd rfl hr
        | some m =>
          have heq : eraseRec k dim (Tree.node l key v r) key
              = (Tree.node l m.1 m.2 (eraseRec k ((dim + 1) % k) r m.1).1,
                 (eraseRec k ((dim + 1) % k) r m.1).2) := by
            simp [eraseRec, hr, hfm]
          rw [heq]
          apply weakInv_node_iff.mpr
          have hmin : ∀ e ∈ inorder r, comp m.1 dim ≤ comp e.1 dim :=
            findMin_le hIr hfm
          have hmem : m ∈ inorder r := findMin_mem hfm
          refine ⟨?_, ?_, hIl, ihr hIr⟩
          · intro e he
            exact le_trans (hL e he) (hR m hmem)
          · intro e he
            exact hmin e (eraseRec_subset k he)
    · by_cases hs : strictLessKey dim key ky = true
      · have heq : eraseRec k dim (Tree.node l ky v r) key
            = (Tree.node (eraseRec k ((dim + 1) % k) l key).1 ky v r,
               (eraseRec k ((dim + 1) % k) l key).2) := by
          simp [eraseRec, hk, hs]
        rw [heq]
        apply weakInv_node_iff.mpr
        refine ⟨?_, hR, ihl hIl, hIr⟩
        intro e he
        exact hL e (eraseRec_subset k he)
      · have heq : eraseRec k dim (Tree.node l ky v r) key
            = (Tree.node l ky v (eraseRec k ((dim + 1) % k) r key).1,
               (eraseRec k ((dim + 1) % k) r key).2) := by
          simp [eraseRec, hk, hs]
        rw [heq]
        apply weakInv_node_iff.mpr
        refine ⟨hL, ?_, hIl, ihr hIr⟩
        intro e he
        exact hR e (eraseRec_subset k he)

/-! ### Bulk construction: permutation and invariant -/

theorem KDTree_helper_perm (k : Nat) :
    ∀ (fuel dim : Nat) (v : List Entry), v.length ≤ fuel →
      (inorder (KDTree_helper k fuel dim v)).Perm v := by
  intro fuel
  induction fuel with
  | zero =>
    intro dim v hv
    have hv0 : v = [] := List.length_eq_zero.mp (Nat.le_zero.mp hv)
    subst hv0
    simp [KDTree_helper, inorder]
  | succ fuel ih =>
    intro dim v hv
    by_cases hv0 : v = []
    · subst hv0
      simp [KDTree_helper, inorder]
    · have hvpos : 0 < v.length := List.length_pos.mpr hv0
      have hslen : (List.insertionSort (leD dim) v).length = v.length :=
        List.length_insertionSort _ v
      have hmlt : (v.length - 1) / 2 < (List.insertionSort (leD dim) v).length := by
        omega
      have hgd : (List.insertionSort (leD dim) v).getD ((v.length - 1) / 2) ([], 0)
          = (List.insertionSort (leD dim) v)[(v.length - 1) / 2] :=
        List.getD_eq_getElem _ ([], 0) hmlt
      have heq : KDTree_helper k (fuel + 1) dim v
          = Tree.node
              (KDTree_helper k fuel ((dim + 1) % k)
                ((List.insertionSort (leD dim) v).take ((v.length - 1) / 2)))
              ((List.insertionSort (leD dim) v)[(v.length - 1) / 2]).1
              ((List.insertionSort (leD dim) v)[(v.length - 1) / 2]).2
              (KDTree_helper k fuel ((dim + 1) % k)
                ((List.insertionSort (leD dim) v).drop ((v.length - 1) / 2 + 1))) := by
        rw [show KDTree_helper k (fuel + 1) dim v
          = if v = [] then Tree.leaf else
              Tree.node
                (KDTree_helper k fuel ((dim + 1) % k)
                  ((List.insertionSort (leD dim) v).take ((v.length - 1) / 2)))
                ((List.insertionSort (leD dim) v).getD ((v.length - 1) / 2) ([], 0)).1
                ((List.insertionSort (leD dim) v).getD ((v.length - 1) / 2) ([], 0)).2
                (KDTree_helper k fuel ((dim + 1) % k)
                  ((List.insertionSort (leD dim) v).drop ((v.length - 1) / 2 + 1)))
          from rfl, if_neg hv0, hgd]
      have h1 : ((List.insertionSort (leD dim) v).take ((v.length - 1) / 2)).length ≤ fuel := by
        rw [List.length_take]
        omega
      have h2 : ((List.insertionSort (leD dim) v).drop ((v.length - 1) / 2 + 1)).length
          ≤ fuel := by
        rw [List.length_drop]
        omega
      have hsplit : (List.insertionSort (leD dim) v).take ((v.length - 1) / 2)
            ++ (List.insertionSort (leD dim) v)[(v.length - 1) / 2]
              :: (List.insertionSort (leD dim) v).drop ((v.length - 1) / 2 + 1)
          = List.insertionSort (leD dim) v := by
        conv_rhs => rw [← List.take_append_drop ((v.length - 1) / 2)
          (List.insertionSort (leD dim) v)]
        rw [List.drop_eq_getElem_cons hmlt]
      rw [heq, inorder]
      have hmid : ((((List.insertionSort (leD dim) v)[(v.length - 1) / 2]).1,
          ((List.insertionSort (leD dim) v)[(v.length - 1) / 2]).2) : Entry)
          = (List.insertionSort (leD dim) v)[(v.length - 1) / 2] := rfl
      rw [hmid]
      have hp : (inorder (KDTree_helper k fuel ((dim + 1) % k)
            ((List.insertionSort (leD dim) v).take ((v.length - 1) / 2)))
          ++ (List.insertionSort (leD dim) v)[(v.length - 1) / 2]
            :: inorder (KDTree_helper k fuel ((dim + 1) % k)
              ((List.insertionSort (leD dim) v).drop ((v.length - 1) / 2 + 1)))).Perm
          ((List.insertionSort (leD dim) v).take ((v.length - 1) / 2)
            ++ (List.insertionSort (leD dim) v)[(v.length - 1) / 2]
              :: (List.insertionSort (leD dim) v).drop ((v.length - 1) / 2 + 1)) :=
        (ih _ _ h1).append ((ih _ _ h2).cons _)
      rw [hsplit] at hp
      exact hp.trans (List.perm_insertionSort _ v)

theorem KDTree_helper_inv (k : Nat) :
    ∀ (fuel dim : Nat) (v : List Entry), v.length ≤ fuel →
      weakInvB k dim (KDTree_helper k fuel dim v) = true := by
  intro fuel
  induction fuel with
  | zero =>
    intro dim v hv
    have hv0 : v = [] := List.length_eq_zero.mp (Nat.le_zero.mp hv)
    subst hv0
    simp [KDTree_helper, weakInvB]
  | succ fuel ih =>
    intro dim v hv
    by_cases hv0 : v = []
    · subst hv0
      simp [KDTree_helper, weakInvB]
    · have hvpos : 0 < v.length := List.length_pos.mpr hv0
      have hslen : (List.insertionSort (leD dim) v).length = v.length :=
        List.length_insertionSort _ v
      have hmlt : (v.length - 1) / 2 < (List.insertionSort (leD dim) v).length := by
        omega
      have hgd : (List.insertionSort (leD dim) v).getD ((v.length - 1) / 2) ([], 0)
          = (List.insertionSort (leD dim) v)[(v.length - 1) / 2] :=
        List.getD_eq_getElem _ ([], 0) hmlt
      have heq : KDTree_helper k (fuel + 1) dim v
          = Tree.node
              (KDTree_helper k fuel ((dim + 1) % k)
                ((List.insertionSort (leD dim) v).take ((v.length - 1) / 2)))
              ((List.insertionSort (leD dim) v)[(v.length - 1) / 2]).1
              ((List.insertionSort (leD dim) v)[(v.length - 1) / 2]).2
              (KDTree_helper k fuel ((dim + 1) % k)
                ((List.insertionSort (leD dim) v).drop ((v.length - 1) / 2 + 1))) := by
        rw [show KDTree_helper k (fuel + 1) dim v
          = if v = [] then Tree.leaf else
              Tree.node
                (KDTree_helper k fuel ((dim + 1) % k)
                  ((List.insertionSort (leD dim) v).take ((v.length - 1) / 2)))
                ((List.insertionSort (leD dim) v).getD ((v.length - 1) / 2) ([], 0)).1
                ((List.insertionSort (leD dim) v).getD ((v.length - 1) / 2) ([], 0)).2
                (KDTree_helper k fuel ((dim + 1) % k)
                  ((List.insertionSort (leD dim) v).drop ((v.length - 1) / 2 + 1)))
          from rfl, if_neg hv0, hgd]
      have h1 : ((List.insertionSort (leD dim) v).take ((v.length - 1) / 2)).length ≤ fuel := by
        rw [List.length_take]
        omega
      have h2 : ((List.insertionSort (leD dim) v).drop ((v.length - 1) / 2 + 1)).length
          ≤ fuel := by
        rw [List.length_drop]
        omega
      have hsplit : (List.insertionSort (leD dim) v).take ((v.length - 1) / 2)
            ++ (List.insertionSort (leD dim) v)[(v.length - 1) / 2]
              :: (List.insertionSort (leD dim) v).drop ((v.length - 1) / 2 + 1)
          = List.insertionSort (leD dim) v := by
        conv_rhs => rw [← List.take_append_drop ((v.length - 1) / 2)
          (List.insertionSort (leD dim) v)]
        rw [List.drop_eq_getElem_cons hmlt]
      haveI : IsTotal Entry (leD dim) := ⟨leD_total dim⟩
      haveI : IsTrans Entry (leD dim) := ⟨leD_trans dim⟩
      have hsort : List.Pairwise (leD dim) (List.insertionSort (leD dim) v) :=
        List.sorted_insertionSort (leD dim) v
      rw [← hsplit] at hsort
      obtain ⟨pw1, pw2, hcross⟩ := List.pairwise_append.mp hsort
      obtain ⟨hhead, _⟩ := List.pairwise_cons.mp pw2
      rw [heq]
      apply weakInv_node_iff.mpr
      refine ⟨?_, ?_, ih _ _ h1, ih _ _ h2⟩
      · intro e he
        have hmem : e ∈ (List.insertionSort (leD dim) v).take ((v.length - 1) / 2) :=
          (KDTree_helper_perm k fuel _ _ h1).mem_iff.mp he
        have hle : leD dim e (List.insertionSort (leD dim) v)[(v.length - 1) / 2] :=
          hcross e hmem _ (List.mem_cons_self _ _)
        exact cmpKeyLt_false_le hle
      · intro e he
        have hmem : e ∈ (List.insertionSort (leD dim) v).drop ((v.length - 1) / 2 + 1) :=
          (KDTree_helper_perm k fuel _ _ h2).mem_iff.mp he
        have hle : leD dim (List.insertionSort (leD dim) v)[(v.length - 1) / 2] e :=
          hhead e hmem
        exact cmpKeyLt_false_le hle

/-! ### Zipper plugging and the invariant -/

theorem mod_step (k a : Nat) : (a % k + 1) % k = (a + 1) % k := by
  rw [Nat.mod_add_mod]

theorem copyAll_id : ∀ t : Tree, copyAll t = t := by
  intro t
  induction t with
  | leaf => rfl
  | node l ky v r ihl ihr => simp [copyAll, ihl, ihr]

theorem plug_inv_focus (k : Nat) :
    ∀ (cs : List Crumb) (f : Tree), weakInvB k 0 (plug cs f) = true →
      weakInvB k (cs.length % k) f = true := by
  intro cs
  induction cs with
  | nil =>
    intro f h
    simpa [Nat.zero_mod] using h
  | cons c cs ih =>
    intro f h
    have h2 := ih (rebuild c f) (by simpa [plug] using h)
    cases c with
    | lft ky v r =>
      have h3 := (weakInv_node_iff.mp (by simpa [rebuild] using h2)).2.2.1
      rw [mod_step] at h3
      simpa [List.length_cons] using h3
    | rgt l ky v =>
      have h3 := (weakInv_node_iff.mp (by simpa [rebuild] using h2)).2.2.2
      rw [mod_step] at h3
      simpa [List.length_cons] using h3

theorem plug_inv_update (k : Nat) :
    ∀ (cs : List Crumb) (f g : Tree), weakInvB k 0 (plug cs f) = true →
      weakInvB k (cs.length % k) g = true →
      (∀ e ∈ inorder g, e ∈ inorder f) →
      weakInvB k 0 (plug cs g) = true := by
  intro cs
  induction cs with
  | nil =>
    intro f g _ hg _
    simpa [plug, Nat.zero_mod] using hg
  | cons c cs ih =>
    intro f g hf hg hsub
    show weakInvB k 0 (plug cs (rebuild c g)) = true
    have hf2 : weakInvB k 0 (plug cs (rebuild c f)) = true := by simpa [plug] using hf
    have hfocus : weakInvB k (cs.length % k) (rebuild c f) = true :=
      plug_inv_focus k cs _ hf2
    have hglen : weakInvB k ((cs.length % k + 1) % k) g = true := by
      rw [mod_step]
      simpa [List.length_cons] using hg
    apply ih (rebuild c f) (rebuild c g) hf2
    · cases c with
      | lft ky v r =>
        obtain ⟨hL, hR, _, hIr⟩ := weakInv_node_iff.mp
          (by simpa [rebuild] using hfocus)
        show weakInvB k (cs.length % k) (Tree.node g ky v r) = true
        exact weakInv_node_iff.mpr ⟨fun e he => hL e (hsub e he), hR, hglen, hIr⟩
      | rgt l ky v =>
        obtain ⟨hL, hR, hIl, _⟩ := weakInv_node_iff.mp
          (by simpa [rebuild] using hfocus)
        show weakInvB k (cs.length % k) (Tree.node l ky v g) = true
        exact weakInv_node_iff.mpr ⟨hL, fun e he => hR e (hsub e he), hIl, hglen⟩
    · cases c with
      | lft ky v r =>
        intro e he
        simp only [rebuild, inorder, List.mem_append, List.mem_cons] at he ⊢
        rcases he with h | h | h
        · exact Or.inl (hsub e h)
        · exact Or.inr (Or.inl h)
        · exact Or.inr (Or.inr h)
      | rgt l ky v =>
        intro e he
        simp only [rebuild, inorder, List.mem_append, List.mem_cons] at he ⊢
        rcases he with h | h | h
        · exact Or.inl h
        · exact Or.inr (Or.inl h)
        · exact Or.inr (Or.inr (hsub e h))

/-! ### Counterexample to the strict tree invariant (claim C1)

Bulk construction partitions with `compareData<DIM>`, whose full-key
lexicographic tie-break sends a key that TIES on the active component (but
is lexicographically smaller) to the LEFT of the median.  The strict
left-subtree bound of the claimed invariant therefore fails on the tree the
public bulk constructor builds from `(1,1), (1,2), (1,3)` with `k = 2`:
`(1,2)` becomes the root at dimension 0 and `(1,1)` its LEFT child, with
first component `1 ≮ 1`. -/

theorem C1_strict_counterexample :
    strictInvB 2 0 (bulkNew 2 [([1, 1], 0), ([1, 2], 0), ([1, 3], 0)]).root = false := by
  decide

/-- C1 amended: after every public mutating operation — bulk construction,
insert, erase by key, erase by cursor (on a cursor actually referencing a
node of the tree), and copy — every node at depth `d` with `dim = d mod k`
bounds every key of its left subtree by `≤` on component `dim` (amended
from the claim's strict `<`, refuted by `C1_strict_counterexample`) and
every key of its right subtree by `≥`. -/
theorem C1_weak_invariant (k : Nat) :
    (∀ v : List Entry, weakInvB k 0 (bulkNew k v).root = true)
    ∧ (∀ (T : KDT) (key : Key) (v : Value), weakInvB k 0 T.root = true →
        weakInvB k 0 (insertPub k key v T).root = true)
    ∧ (∀ (T : KDT) (key : Key), weakInvB k 0 T.root = true →
        weakInvB k 0 (erasePub k key T).1.root = true)
    ∧ (∀ (T : KDT) (c : Cursor), cursorGoodFor T.root c →
        weakInvB k 0 T.root = true →
        weakInvB k 0 (eraseByCursor k T c).1.root = true)
    ∧ (∀ T : KDT, weakInvB k 0 T.root = true →
        weakInvB k 0 (copyPub T).root = true) := by
  refine ⟨?_, ?_, ?_, ?_, ?_⟩
  · intro v
    exact KDTree_helper_inv k _ 0 _ (le_refl _)
  · intro T key v hT
    exact insertRec_inv k key v hT
  · intro T key hT
    show weakInvB k 0 (if T.treeSize - (if (eraseRec k 0 T.root key).2 then 1 else 0) = 0
      then Tree.leaf else (eraseRec k 0 T.root key).1) = true
    by_cases hs0 : T.treeSize - (if (eraseRec k 0 T.root key).2 then 1 else 0) = 0
    · rw [if_pos hs0]; rfl
    · rw [if_neg hs0]; exact eraseRec_inv k hT
  · intro T c hgood hT
    cases c with
    | none => exact hT
    | some p =>
      obtain ⟨cs, f⟩ := p
      cases f with
      | leaf => exact absurd rfl hgood.2
      | node l ky v r =>
        obtain ⟨hplug, -⟩ := hgood
        by_cases hlr : l = Tree.leaf ∧ r = Tree.leaf
        · have heq : (eraseByCursor k T (some (cs, Tree.node l ky v r))).1.root
              = if T.treeSize -
                  (if (eraseRec k (cs.length % k) (Tree.node l ky v r) ky).2 then 1 else 0) = 0
                then Tree.leaf else T.root := by
            simp [eraseByCursor, hlr]
          rw [heq]
          by_cases hs0 : T.treeSize -
              (if (eraseRec k (cs.length % k) (Tree.node l ky v r) ky).2 then 1 else 0) = 0
          · rw [if_pos hs0]; rfl
          · rw [if_neg hs0]; exact hT
        · have heq : (eraseByCursor k T (some (cs, Tree.node l ky v r))).1.root
              = if T.treeSize -
                  (if (eraseRec k (cs.length % k) (Tree.node l ky v r) ky).2 then 1 else 0) = 0
                then Tree.leaf
                else plug cs (eraseRec k (cs.length % k) (Tree.node l ky v r) ky).1 := by
            simp [eraseByCursor, hlr]
          rw [heq]
          by_cases hs0 : T.treeSize -
              (if (eraseRec k (cs.length % k) (Tree.node l ky v r) ky).2 then 1 else 0) = 0
          · rw [if_pos hs0]; rfl
          · rw [if_neg hs0]
            have hf : weakInvB k 0 (plug cs (Tree.node l ky v r)) = true := by
              rw [hplug]; exact hT
            have hfocus : weakInvB k (cs.length % k) (Tree.node l ky v r) = true :=
              plug_inv_focus k cs _ hf
            exact plug_inv_update k cs _ _ hf (eraseRec_inv k hfocus)
              (fun e he => eraseRec_subset k he)
  · intro T hT
    show weakInvB k 0 (copyAll T.root) = true
    rw [copyAll_id]
    exact hT

/-- Witness for C1 at concrete inputs: a bulk-built tree satisfies the weak
invariant, and insert, erase by key, erase by cursor and copy preserve it
there. -/
theorem C1_weak_invariant_witness :
    weakInvB 2 0 (bulkNew 2 [([2, 3], 10), ([1, 1], 20), ([4, 0], 30)]).root = true
    ∧ weakInvB 2 0 (insertPub 2 [1, 1] 5
        { root := Tree.node .leaf [2, 2] 0 .leaf, treeSize := 1 }).root = true
    ∧ weakInvB 2 0 (erasePub 2 [2, 2]
        { root := Tree.node .leaf [2, 2] 0 .leaf, treeSize := 1 }).1.root = true
    ∧ weakInvB 2 0 (eraseByCursor 2
        { root := Tree.node .leaf [2, 2] 0 (Tree.node .leaf [3, 1] 1 .leaf), treeSize := 2 }
        (some ([Crumb.rgt .leaf [2, 2] 0], Tree.node .leaf [3, 1] 1 .leaf))).1.root = true
    ∧ weakInvB 2 0 (copyPub
        { root := Tree.node .leaf [2, 2] 0 .leaf, treeSize := 1 }).root = true :=
  ⟨(C1_weak_invariant 2).1 [([2, 3], 10), ([1, 1], 20), ([4, 0], 30)],
   (C1_weak_invariant 2).2.1 _ [1, 1] 5 (by decide),
   (C1_weak_invariant 2).2.2.1 _ [2, 2] (by decide),
   (C1_weak_invariant 2).2.2.2.1 _
     (some ([Crumb.rgt .leaf [2, 2] 0], Tree.node .leaf [3, 1] 1 .leaf))
     ⟨by decide, by decide⟩ (by decide),
   (C1_weak_invariant 2).2.2.2.2 _ (by decide)⟩

/-! ### Extremum queries are correct (claim C5) -/

theorem findMinDynamicRec_eq (k : Nat) (t : Tree) (d : Nat) (hd : d < k) :
    ∀ (fuel i : Nat), i ≤ d → d - i < fuel →
      findMinDynamicRec k t fuel i d = findMin k d 0 t := by
  intro fuel
  induction fuel with
  | zero => intro i _ h; omega
  | succ fuel ih =>
    intro i hi hlt
    have hdk : ¬ d ≥ k := by omega
    by_cases hie : d = i
    · subst hie
      simp [findMinDynamicRec, hdk]
    · have : i < d := by omega
      have h1 : (i + 1) % k = i + 1 := Nat.mod_eq_of_lt (by omega)
      rw [show findMinDynamicRec k t (fuel + 1) i d
        = if (if d ≥ k then d % k else d) = i then findMin k i 0 t
          else findMinDynamicRec k t fuel ((i + 1) % k) (if d ≥ k then d % k else d)
        from rfl]
      rw [if_neg hdk, if_neg (by omega : ¬ d = i), h1]
      exact ih (i + 1) (by omega) (by omega)

theorem findMaxDynamicRec_eq (k : Nat) (t : Tree) (d : Nat) (hd : d < k) :
    ∀ (fuel i : Nat), i ≤ d → d - i < fuel →
      findMaxDynamicRec k t fuel i d = findMax k d 0 t := by
  intro fuel
  induction fuel with
  | zero => intro i _ h; omega
  | succ fuel ih =>
    intro i hi hlt
    have hdk : ¬ d ≥ k := by omega
    by_cases hie : d = i
    · subst hie
      simp [findMaxDynamicRec, hdk]
    · have : i < d := by omega
      have h1 : (i + 1) % k = i + 1 := Nat.mod_eq_of_lt (by omega)
      rw [show findMaxDynamicRec k t (fuel + 1) i d
        = if (if d ≥ k then d % k else d) = i then findMax k i 0 t
          else findMaxDynamicRec k t fuel ((i + 1) % k) (if d ≥ k then d % k else d)
        from rfl]
      rw [if_neg hdk, if_neg (by omega : ¬ d = i), h1]
      exact ih (i + 1) (by omega) (by omega)

/-- C5: on a non-empty tree of the structure (weak invariant) and a
dimension `d < k`, `findMax(d)` returns an entry of the tree whose `d`-th
key component is `≥` the `d`-th component of every entry's key, and
symmetrically for `findMin`; the runtime-dimension variants agree with the
compile-time ones. -/
theorem C5_extrema_correct (k d : Nat) (T : KDT) (hd : d < k)
    (hne : T.root ≠ Tree.leaf) (hinv : weakInvB k 0 T.root = true) :
    (∃ m, findMaxStatic k d T = some m ∧ m ∈ inorder T.root
      ∧ ∀ e ∈ inorder T.root, comp e.1 d ≤ comp m.1 d)
    ∧ (∃ m, findMinStatic k d T = some m ∧ m ∈ inorder T.root
      ∧ ∀ e ∈ inorder T.root, comp m.1 d ≤ comp e.1 d)
    ∧ findMaxDyn k d T = findMaxStatic k d T
    ∧ findMinDyn k d T = findMinStatic k d T := by
  refine ⟨?_, ?_, ?_, ?_⟩
  · cases hm : findMax k d 0 T.root with
    | none => exact absurd (findMax_eq_none.mp hm) hne
    | some m => exact ⟨m, hm, findMax_mem hm, findMax_ge hinv hm⟩
  · cases hm : findMin k d 0 T.root with
    | none => exact absurd (findMin_eq_none.mp hm) hne
    | some m => exact ⟨m, hm, findMin_mem hm, findMin_le hinv hm⟩
  · exact findMaxDynamicRec_eq k T.root d hd k 0 (Nat.zero_le d) (by omega)
  · exact findMinDynamicRec_eq k T.root d hd k 0 (Nat.zero_le d) (by omega)

/-- Witness for C5 on the specification's worked example tree. -/
theorem C5_extrema_correct_witness :
    (∃ m, findMaxStatic 2 1
        (KDT.mk (Tree.node (Tree.node .leaf [1, 1] 20 .leaf) [2, 3] 10
            (Tree.node .leaf [4, 0] 30 .leaf)) 3) = some m
      ∧ m ∈ inorder (Tree.node (Tree.node .leaf [1, 1] 20 .leaf) [2, 3] 10
            (Tree.node .leaf [4, 0] 30 .leaf))
      ∧ ∀ e ∈ inorder (Tree.node (Tree.node .leaf [1, 1] 20 .leaf) [2, 3] 10
            (Tree.node .leaf [4, 0] 30 .leaf)), comp e.1 1 ≤ comp m.1 1)
    ∧ (∃ m, findMinStatic 2 1
        (KDT.mk (Tree.node (Tree.node .leaf [1, 1] 20 .leaf) [2, 3] 10
            (Tree.node .leaf [4, 0] 30 .leaf)) 3) = some m
      ∧ m ∈ inorder (Tree.node (Tree.node .leaf [1, 1] 20 .leaf) [2, 3] 10
            (Tree.node .leaf [4, 0] 30 .leaf))
      ∧ ∀ e ∈ inorder (Tree.node (Tree.node .leaf [1, 1] 20 .leaf) [2, 3] 10
            (Tree.node .leaf [4, 0] 30 .leaf)), comp m.1 1 ≤ comp e.1 1)
    ∧ findMaxDyn 2 1 (KDT.mk (Tree.node (Tree.node .leaf [1, 1] 20 .leaf) [2, 3] 10
            (Tree.node .leaf [4, 0] 30 .leaf)) 3)
      = findMaxStatic 2 1 (KDT.mk (Tree.node (Tree.node .leaf [1, 1] 20 .leaf) [2, 3] 10
            (Tree.node .leaf [4, 0] 30 .leaf)) 3)
    ∧ findMinDyn 2 1 (KDT.mk (Tree.node (Tree.node .leaf [1, 1] 20 .leaf) [2, 3] 10
            (Tree.node .leaf [4, 0] 30 .leaf)) 3)
      = findMinStatic 2 1 (KDT.mk (Tree.node (Tree.node .leaf [1, 1] 20 .leaf) [2, 3] 10
            (Tree.node .leaf [4, 0] 30 .leaf)) 3) :=
  C5_extrema_correct 2 1
    (KDT.mk (Tree.node (Tree.node .leaf [1, 1] 20 .leaf) [2, 3] 10
        (Tree.node .leaf [4, 0] 30 .leaf)) 3)
    (by decide) (by decide) (by decide)

/-! ### Stability of the model sort on a key class (claim C6) -/

theorem lexLt_irrefl (a : Key) : lexLt a a = false := by
  cases h : lexLt a a with
  | false => rfl
  | true => exact absurd (lexLt_asymm h) (by simp [h])

theorem cmpKeyLt_irrefl (d : Nat) (a : Key) : cmpKeyLt d a a = false := by
  unfold cmpKeyLt
  simp [lexLt_irrefl]

theorem filter_orderedInsert_true (key : Key) (a : Entry) (ha : a.1 = key) :
    ∀ l : List Entry,
      (List.orderedInsert (leD 0) a l).filter (fun x => decide (x.1 = key))
        = a :: l.filter (fun x => decide (x.1 = key)) := by
  intro l
  induction l with
  | nil => simp [List.orderedInsert, ha]
  | cons b bs ih =>
    by_cases hr : leD 0 a b
    · simp only [List.orderedInsert, if_pos hr]
      simp [List.filter_cons, ha]
    · simp only [List.orderedInsert, if_neg hr]
      have hba : cmpEntryLt 0 b a = true := by
        unfold leD at hr
        simpa using hr
      have hb : ¬ (b.1 = key) := by
        intro hbk
        rw [show cmpEntryLt 0 b a = cmpKeyLt 0 b.1 a.1 from rfl, hbk, ← ha] at hba
        rw [ha] at hba
        exact absurd hba (by simp [cmpKeyLt_irrefl])
      simp [List.filter_cons, hb, ih]

theorem filter_orderedInsert_false (key : Key) (a : Entry) (ha : ¬ a.1 = key) :
    ∀ l : List Entry,
      (List.orderedInsert (leD 0) a l).filter (fun x => decide (x.1 = key))
        = l.filter (fun x => decide (x.1 = key)) := by
  intro l
  induction l with
  | nil => simp [List.orderedInsert, ha]
  | cons b bs ih =>
    by_cases hr : leD 0 a b
    · simp only [List.orderedInsert, if_pos hr]
      simp [List.filter_cons, ha]
    · simp only [List.orderedInsert, if_neg hr]
      simp [List.filter_cons, ih]

theorem filter_insertionSort (key : Key) :
    ∀ v : List Entry,
      (List.insertionSort (leD 0) v).filter (fun x => decide (x.1 = key))
        = v.filter (fun x => decide (x.1 = key)) := by
  intro v
  induction v with
  | nil => rfl
  | cons a as ih =>
    show (List.orderedInsert (leD 0) a (List.insertionSort (leD 0) as)).filter _ = _
    by_cases ha : a.1 = key
    · rw [filter_orderedInsert_true key a ha, ih]
      simp [List.filter_cons, ha]
    · rw [filter_orderedInsert_false key a ha, ih]
      simp [List.filter_cons, ha]

/-! ### The reverse-unique deduplication -/

theorem dedupLast_subset : ∀ (l : List Entry) (e : Entry), e ∈ dedupLast l → e ∈ l
  | [], e, h => by simpa [dedupLast] using h
  | [x], e, h => by simpa [dedupLast] using h
  | x :: y :: rest, e, h => by
    by_cases hk : x.1 = y.1
    · simp only [dedupLast, if_pos hk] at h
      exact List.mem_cons_of_mem x (dedupLast_subset (y :: rest) e h)
    · simp only [dedupLast, if_neg hk] at h
      rcases List.mem_cons.mp h with h1 | h1
      · exact h1 ▸ List.mem_cons_self _ _
      · exact List.mem_cons_of_mem x (dedupLast_subset (y :: rest) e h1)

theorem dedupLast_keys : ∀ (l : List Entry) (key : Key) (val : Value),
    (key, val) ∈ l → ∃ v2, (key, v2) ∈ dedupLast l
  | [], key, val, h => absurd h (List.not_mem_nil _)
  | [x], key, val, h => ⟨val, by simpa [dedupLast] using h⟩
  | x :: y :: rest, key, val, h => by
    by_cases hk : x.1 = y.1
    · simp only [dedupLast, if_pos hk]
      rcases List.mem_cons.mp h with h1 | h1
      · obtain ⟨v2, hv2⟩ := dedupLast_keys (y :: rest) y.1 y.2
          (by simpa using List.mem_cons_self y rest)
        refine ⟨v2, ?_⟩
        have hx : key = x.1 := by rw [← h1]
        rw [hx, hk]
        exact hv2
      · exact dedupLast_keys (y :: rest) key val h1
    · simp only [dedupLast, if_neg hk]
      rcases List.mem_cons.mp h with h1 | h1
      · exact ⟨val, h1 ▸ List.mem_cons_self _ _⟩
      · obtain ⟨v2, hv2⟩ := dedupLast_keys (y :: rest) key val h1
        exact ⟨v2, List.mem_cons_of_mem _ hv2⟩

/-- In a sorted list whose head's key differs from the next key, no later
element carries the head's key. -/
theorem sorted_no_class_after {x y : Entry} {rest : List Entry}
    (hs : List.Pairwise (leD 0) (x :: y :: rest)) (hk : ¬ x.1 = y.1) :
    ∀ z ∈ y :: rest, ¬ z.1 = x.1 := by
  intro z hz hzx
  obtain ⟨hx, hs2⟩ := List.pairwise_cons.mp hs
  have h1 : cmpEntryLt 0 y x = false := hx y (List.mem_cons_self _ _)
  have hxy : cmpEntryLt 0 x y = true := by
    cases h2 : cmpEntryLt 0 x y with
    | true => rfl
    | false => exact absurd (cmpKeyLt_conn h2 h1) hk
  rcases List.mem_cons.mp hz with h3 | h3
  · subst h3
    exact hk hzx.symm
  · have h4 : cmpEntryLt 0 z y = false := (List.pairwise_cons.mp hs2).1 z h3
    have h5 : cmpEntryLt 0 z y = cmpEntryLt 0 x y := by
      show cmpKeyLt 0 z.1 y.1 = cmpKeyLt 0 x.1 y.1
      rw [hzx]
    rw [h5, hxy] at h4
    exact absurd h4 (by simp)

theorem dedupLast_getLast : ∀ (l : List Entry), List.Pairwise (leD 0) l →
    ∀ e ∈ dedupLast l,
      (l.filter (fun x => decide (x.1 = e.1))).getLast? = some e
  | [], _, e, he => absurd he (by simp [dedupLast])
  | [x], _, e, he => by
    have hex : e = x := by simpa [dedupLast] using he
    subst hex
    simp [List.filter_cons]
  | x :: y :: rest, hs, e, he => by
    have hs2 : List.Pairwise (leD 0) (y :: rest) := hs.of_cons
    by_cases hk : x.1 = y.1
    · simp only [dedupLast, if_pos hk] at he
      have ih := dedupLast_getLast (y :: rest) hs2 e he
      by_cases hxe : x.1 = e.1
      · have hy : y ∈ (y :: rest).filter (fun z => decide (z.1 = e.1)) := by
          apply List.mem_filter.mpr
          refine ⟨List.mem_cons_self _ _, ?_⟩
          simp [← hk, ← hxe]
        obtain ⟨z, zs, hzz⟩ := List.exists_cons_of_ne_nil (List.ne_nil_of_mem hy)
        rw [List.filter_cons, if_pos (by simpa using hxe), hzz,
          List.getLast?_cons_cons, ← hzz, ih]
      · rw [List.filter_cons, if_neg (by simpa using hxe)]
        exact ih
    · simp only [dedupLast, if_neg hk] at he
      rcases List.mem_cons.mp he with h1 | h1
      · subst h1
        have hnone : (y :: rest).filter (fun z => decide (z.1 = e.1)) = [] := by
          apply List.filter_eq_nil_iff.mpr
          intro z hz
          simpa using sorted_no_class_after hs hk z hz
        rw [List.filter_cons, if_pos (by simp), hnone]
        rfl
      · have hxe : ¬ x.1 = e.1 := by
          intro hxe
          exact sorted_no_class_after hs hk e (dedupLast_subset _ e h1) hxe.symm
        rw [List.filter_cons, if_neg (by simpa using hxe)]
        exact dedupLast_getLast (y :: rest) hs2 e h1

theorem dedupLast_nodup_keys : ∀ (l : List Entry), List.Pairwise (leD 0) l →
    ((dedupLast l).map Prod.fst).Nodup
  | [], _ => by simp [dedupLast]
  | [x], _ => by simp [dedupLast]
  | x :: y :: rest, hs => by
    have hs2 : List.Pairwise (leD 0) (y :: rest) := hs.of_cons
    by_cases hk : x.1 = y.1
    · simp only [dedupLast, if_pos hk]
      exact dedupLast_nodup_keys (y :: rest) hs2
    · simp only [dedupLast, if_neg hk, List.map_cons]
      apply List.nodup_cons.mpr
      refine ⟨?_, dedupLast_nodup_keys (y :: rest) hs2⟩
      intro hmem
      obtain ⟨z, hz, hzx⟩ := List.mem_map.mp hmem
      exact sorted_no_class_after hs hk z (dedupLast_subset _ z hz) hzx

/-- C6: bulk construction keeps exactly one entry per distinct input key
(the tree's key list has no duplicates and its key set is the input's key
set), each surviving entry is the LAST occurrence of its key in input
order, and the size counter is the number of distinct input keys. -/
theorem C6_bulk_dedup (k : Nat) (v : List Entry) :
    (bulkNew k v).treeSize = ((v.map Prod.fst).dedup).length
    ∧ (∀ key : Key,
        (∃ val, (key, val) ∈ inorder (bulkNew k v).root) ↔ key ∈ v.map Prod.fst)
    ∧ ((inorder (bulkNew k v).root).map Prod.fst).Nodup
    ∧ (∀ e ∈ inorder (bulkNew k v).root,
        (v.filter (fun x => decide (x.1 = e.1))).getLast? = some e) := by
  have hperm : (inorder (bulkNew k v).root).Perm
      (dedupLast (List.insertionSort (leD 0) v)) := by
    show (inorder (KDTree_helper k (dedupLast (List.insertionSort (leD 0) v)).length 0
      (dedupLast (List.insertionSort (leD 0) v)))).Perm _
    exact KDTree_helper_perm k _ 0 _ (le_refl _)
  haveI : IsTotal Entry (leD 0) := ⟨leD_total 0⟩
  haveI : IsTrans Entry (leD 0) := ⟨leD_trans 0⟩
  have hsorted : List.Pairwise (leD 0) (List.insertionSort (leD 0) v) :=
    List.sorted_insertionSort (leD 0) v
  have hw_nodup : ((dedupLast (List.insertionSort (leD 0) v)).map Prod.fst).Nodup :=
    dedupLast_nodup_keys _ hsorted
  have hkeyset : ∀ key : Key,
      key ∈ (dedupLast (List.insertionSort (leD 0) v)).map Prod.fst
        ↔ key ∈ v.map Prod.fst := by
    intro key
    constructor
    · intro h
      obtain ⟨e, he, hek⟩ := List.mem_map.mp h
      have h2 : e ∈ List.insertionSort (leD 0) v := dedupLast_subset _ e he
      have h3 : e ∈ v := (List.perm_insertionSort (leD 0) v).mem_iff.mp h2
      exact List.mem_map.mpr ⟨e, h3, hek⟩
    · intro h
      obtain ⟨e, he, hek⟩ := List.mem_map.mp h
      have h2 : e ∈ List.insertionSort (leD 0) v :=
        (List.perm_insertionSort (leD 0) v).mem_iff.mpr he
      obtain ⟨v2, hv2⟩ := dedupLast_keys (List.insertionSort (leD 0) v) e.1 e.2
        (by simpa using h2)
      exact List.mem_map.mpr ⟨(e.1, v2), hv2, hek⟩
  refine ⟨?_, ?_, ?_, ?_⟩
  · show (dedupLast (List.insertionSort (leD 0) v)).length = _
    have h2 : ((dedupLast (List.insertionSort (leD 0) v)).map Prod.fst).dedup
        = (dedupLast (List.insertionSort (leD 0) v)).map Prod.fst :=
      List.dedup_eq_self.mpr hw_nodup
    have h3 : ((dedupLast (List.insertionSort (leD 0) v)).map Prod.fst).toFinset
        = (v.map Prod.fst).toFinset := by
      apply Finset.ext
      intro a
      simp only [List.mem_toFinset]
      exact hkeyset a
    calc (dedupLast (List.insertionSort (leD 0) v)).length
        = ((dedupLast (List.insertionSort (leD 0) v)).map Prod.fst).length :=
          (List.length_map _ _).symm
      _ = ((dedupLast (List.insertionSort (leD 0) v)).map Prod.fst).dedup.length := by
          rw [h2]
      _ = ((dedupLast (List.insertionSort (leD 0) v)).map Prod.fst).toFinset.card :=
          (List.card_toFinset _).symm
      _ = (v.map Prod.fst).toFinset.card := by rw [h3]
      _ = (v.map Prod.fst).dedup.length := List.card_toFinset _
  · intro key
    constructor
    · intro hex
      obtain ⟨val, hval⟩ := hex
      have h1 : (key, val) ∈ dedupLast (List.insertionSort (leD 0) v) :=
        hperm.mem_iff.mp hval
      exact (hkeyset key).mp (List.mem_map.mpr ⟨(key, val), h1, rfl⟩)
    · intro h
      obtain ⟨e, he, hek⟩ := List.mem_map.mp ((hkeyset key).mpr h)
      have h1 : (e.1, e.2) ∈ dedupLast (List.insertionSort (leD 0) v) := by
        simpa using he
      rw [hek] at h1
      exact ⟨e.2, hperm.mem_iff.mpr h1⟩
  · exact (hperm.map Prod.fst).nodup_iff.mpr hw_nodup
  · intro e he
    have hew : e ∈ dedupLast (List.insertionSort (leD 0) v) := hperm.mem_iff.mp he
    have h1 := dedupLast_getLast _ hsorted e hew
    rw [filter_insertionSort e.1 v] at h1
    exact h1

/-- Witness for C6: duplicates of key `(1,2)` are resolved to the last
occurrence's value. -/
theorem C6_bulk_dedup_witness :
    (bulkNew 2 [([1, 2], 7), ([3, 4], 8), ([1, 2], 9)]).treeSize
      = (([([1, 2], 7), ([3, 4], 8), ([1, 2], 9)].map
          (Prod.fst : Entry → Key)).dedup).length
    ∧ ([([1, 2], 7), ([3, 4], 8), ([1, 2], 9)].filter
        (fun x => decide (x.1 = (([1, 2], 9) : Entry).1))).getLast?
      = some ([1, 2], 9) :=
  ⟨(C6_bulk_dedup 2 [([1, 2], 7), ([3, 4], 8), ([1, 2], 9)]).1,
   (C6_bulk_dedup 2 [([1, 2], 7), ([3, 4], 8), ([1, 2], 9)]).2.2.2 ([1, 2], 9)
     (by decide)⟩

/-! ### Erase by cursor loses the node (claim C2)

`KDTree::erase(Iterator)` discards the pointer returned by
`eraseDynamic<0>(node, depth % KeySize)`.  When the referenced node is a
childless non-root node, `erase` deletes that node and returns `nullptr`,
but nobody writes that `nullptr` into the parent's child pointer: the entry
is never detached from the structure (in C++ the parent now holds a
dangling pointer) while `treeSize` drops, and the returned iterator was
redirected to the parent — which for a right child is the in-order
PREDECESSOR, not the successor. -/

theorem C2_erase_cursor_bug :
    inc (begin (insertPub 2 [1, 1] 1 (insertPub 2 [0, 0] 0 emptyKDT)).root)
      = some ([Crumb.rgt .leaf [0, 0] 0], Tree.node .leaf [1, 1] 1 .leaf)
    ∧ eraseByCursor 2 (insertPub 2 [1, 1] 1 (insertPub 2 [0, 0] 0 emptyKDT))
        (some ([Crumb.rgt .leaf [0, 0] 0], Tree.node .leaf [1, 1] 1 .leaf))
      = ({ root := Tree.node .leaf [0, 0] 0 (Tree.node .leaf [1, 1] 1 .leaf),
           treeSize := 1 },
         some ([], Tree.node .leaf [0, 0] 0 (Tree.node .leaf [1, 1] 1 .leaf)))
    ∧ ([1, 1], 1) ∈ inorder
        (eraseByCursor 2 (insertPub 2 [1, 1] 1 (insertPub 2 [0, 0] 0 emptyKDT))
          (some ([Crumb.rgt .leaf [0, 0] 0], Tree.node .leaf [1, 1] 1 .leaf))).1.root
    ∧ count (eraseByCursor 2 (insertPub 2 [1, 1] 1 (insertPub 2 [0, 0] 0 emptyKDT))
          (some ([Crumb.rgt .leaf [0, 0] 0], Tree.node .leaf [1, 1] 1 .leaf))).1.root = 2
    ∧ (eraseByCursor 2 (insertPub 2 [1, 1] 1 (insertPub 2 [0, 0] 0 emptyKDT))
          (some ([Crumb.rgt .leaf [0, 0] 0], Tree.node .leaf [1, 1] 1 .leaf))).1.treeSize
        = 1 := by
  decide

/-! ### Erase by key misses a present key (claim C3)

`erase` (and `find`) descend with `strictLessKey`, which sends keys tying
on the active component to the RIGHT, while the deletion substitute for a
node with only a left child is the MAXIMUM of the left subtree on the
active dimension — which can tie with another left-subtree key.  After
inserting `(5,5), (3,1), (3,2)` (`k = 2`) and erasing `(5,5)`, the root is
`(3,2)` with `(3,1)` as its LEFT child; a later `erase((3,1))` descends
right at the root (`3 < 3` is false), misses the present key, removes
nothing and returns `false`. -/

theorem C3_erase_present_key_returns_false :
    ([3, 1], 1) ∈ inorder
      (erasePub 2 [5, 5]
        (insertPub 2 [3, 2] 2 (insertPub 2 [3, 1] 1
          (insertPub 2 [5, 5] 0 emptyKDT)))).1.root
    ∧ (erasePub 2 [3, 1]
        (erasePub 2 [5, 5]
          (insertPub 2 [3, 2] 2 (insertPub 2 [3, 1] 1
            (insertPub 2 [5, 5] 0 emptyKDT)))).1).2 = false
    ∧ (erasePub 2 [3, 1]
        (erasePub 2 [5, 5]
          (insertPub 2 [3, 2] 2 (insertPub 2 [3, 1] 1
            (insertPub 2 [5, 5] 0 emptyKDT)))).1).1
      = (erasePub 2 [5, 5]
          (insertPub 2 [3, 2] 2 (insertPub 2 [3, 1] 1
            (insertPub 2 [5, 5] 0 emptyKDT)))).1
    ∧ findPub 2 [3, 1]
        (erasePub 2 [5, 5]
          (insertPub 2 [3, 2] 2 (insertPub 2 [3, 1] 1
            (insertPub 2 [5, 5] 0 emptyKDT)))).1 = none := by
  decide

/-! ### Forward traversal (claim C7) -/

theorem count_eq_length (t : Tree) : count t = (inorder t).length := by
  induction t with
  | leaf => rfl
  | node l ky v r ihl ihr => simp [count, inorder, ihl, ihr]; omega

theorem inorder_eq_nil {t : Tree} : inorder t = [] ↔ t = Tree.leaf := by
  constructor
  · intro h
    cases t with
    | leaf => rfl
    | node l ky v r => simp [inorder] at h
  · intro h; subst h; rfl

theorem rem_descendLeft : ∀ (t : Tree) (cs : List Crumb), t ≠ Tree.leaf →
    rem (descendLeft cs t) = inorder t ++ upNext cs := by
  intro t
  induction t with
  | leaf => intro cs h; exact absurd rfl h
  | node l ky v r ihl ihr =>
    intro cs _
    cases l with
    | leaf =>
      show rem (some (cs, Tree.node .leaf ky v r)) = _
      simp [rem, inorder]
    | node a kb vb b =>
      show rem (descendLeft (.lft ky v r :: cs) (Tree.node a kb vb b)) = _
      rw [ihl (.lft ky v r :: cs) (by simp)]
      simp [upNext, inorder]

theorem goodCur_descendLeft : ∀ (t : Tree) (cs : List Crumb),
    goodCur (descendLeft cs t) := by
  intro t
  induction t with
  | leaf => intro cs; simp [descendLeft, goodCur]
  | node l ky v r ihl ihr =>
    intro cs
    cases l with
    | leaf => simp [descendLeft, goodCur]
    | node a kb vb b => exact ihl (.lft ky v r :: cs)

theorem rem_walkUpRight : ∀ (cs : List Crumb) (cur : Tree),
    rem (walkUpRight cs cur) = upNext cs := by
  intro cs
  induction cs with
  | nil => intro cur; rfl
  | cons c cs ih =>
    intro cur
    cases c with
    | lft ky v r => simp [walkUpRight, rem, upNext]
    | rgt l ky v => simp [walkUpRight, upNext, ih]

theorem goodCur_walkUpRight : ∀ (cs : List Crumb) (cur : Tree),
    goodCur (walkUpRight cs cur) := by
  intro cs
  induction cs with
  | nil => intro cur; simp [walkUpRight, goodCur]
  | cons c cs ih =>
    intro cur
    cases c with
    | lft ky v r => simp [walkUpRight, goodCur]
    | rgt l ky v => exact ih _

theorem rem_inc (cs : List Crumb) (l : Tree) (ky : Key) (v : Value) (r : Tree) :
    rem (inc (some (cs, Tree.node l ky v r))) = inorder r ++ upNext cs := by
  cases r with
  | leaf =>
    show rem (walkUpRight cs (Tree.node l ky v .leaf)) = _
    rw [rem_walkUpRight]
    simp [inorder]
  | node a kb vb b =>
    show rem (descendLeft (.rgt l ky v :: cs) (Tree.node a kb vb b)) = _
    rw [rem_descendLeft _ _ (by simp)]
    simp [upNext]

theorem goodCur_inc : ∀ c : Cursor, goodCur (inc c) := by
  intro c
  match c with
  | none => exact trivial
  | some (cs, Tree.leaf) => exact trivial
  | some (cs, Tree.node l ky v Tree.leaf) => exact goodCur_walkUpRight cs _
  | some (cs, Tree.node l ky v (Tree.node a kb vb b)) =>
    exact goodCur_descendLeft _ (.rgt l ky v :: cs)

theorem fwd_aux : ∀ (n : Nat) (c : Cursor), goodCur c → (rem c).length = n →
    fwdList c n = rem c ∧ inc^[n] c = none := by
  intro n
  induction n with
  | zero =>
    intro c hg hl
    match c with
    | none => exact ⟨rfl, rfl⟩
    | some (cs, Tree.leaf) => exact absurd rfl hg
    | some (cs, Tree.node l ky v r) => simp [rem] at hl
  | succ n ih =>
    intro c hg hl
    match c with
    | none => simp [rem] at hl
    | some (cs, Tree.leaf) => exact absurd rfl hg
    | some (cs, Tree.node l ky v r) =>
      have h2 : rem (inc (some (cs, Tree.node l ky v r))) = inorder r ++ upNext cs :=
        rem_inc cs l ky v r
      have hlen2 : (rem (inc (some (cs, Tree.node l ky v r)))).length = n := by
        rw [h2]
        have hl2 : ((ky, v) :: (inorder r ++ upNext cs)).length = n + 1 := hl
        simp only [List.length_cons] at hl2
        omega
      obtain ⟨ih1, ih2⟩ := ih (inc (some (cs, Tree.node l ky v r))) (goodCur_inc _) hlen2
      constructor
      · show (ky, v) :: fwdList (inc (some (cs, Tree.node l ky v r))) n = _
        rw [ih1, h2]
        rfl
      · rw [Function.iterate_succ_apply]
        exact ih2

theorem fwd_traverse (t : Tree) :
    fwdList (begin t) (count t) = inorder t ∧ inc^[count t] (begin t) = none := by
  by_cases ht : t = Tree.leaf
  · subst ht
    exact ⟨rfl, rfl⟩
  · have h1 : rem (begin t) = inorder t := by
      have h := rem_descendLeft t [] ht
      simpa [begin, upNext] using h
    have h2 : (rem (begin t)).length = count t := by
      rw [h1, count_eq_length]
    obtain ⟨ha, hb⟩ := fwd_aux (count t) (begin t) (goodCur_descendLeft t []) h2
    exact ⟨by rw [ha, h1], hb⟩

theorem descendLeft_leftmost : ∀ (t : Tree) (cs : List Crumb), t ≠ Tree.leaf →
    ∃ cs2, descendLeft cs t = some (cs2, spec_leftmost t) := by
  intro t
  induction t with
  | leaf => intro cs h; exact absurd rfl h
  | node l ky v r ihl ihr =>
    intro cs _
    cases l with
    | leaf => exact ⟨cs, by simp [descendLeft, spec_leftmost]⟩
    | node a kb vb b =>
      obtain ⟨cs2, h⟩ := ihl (.lft ky v r :: cs) (by simp)
      exact ⟨cs2, by simpa [descendLeft, spec_leftmost] using h⟩

/-- C7: forward iteration from `begin()` visits every node exactly once in
the in-order sequence of the tree as a plain binary tree, reaching end
after exactly `count t` steps; `begin()` of the empty tree is end, and for
a non-empty tree `begin()` references the left-most node from the root. -/
theorem C7_inorder_traversal (t : Tree) :
    fwdList (begin t) (count t) = inorder t
    ∧ inc^[count t] (begin t) = none
    ∧ begin Tree.leaf = none
    ∧ (t ≠ Tree.leaf → ∃ cs, begin t = some (cs, spec_leftmost t)) := by
  refine ⟨(fwd_traverse t).1, (fwd_traverse t).2, rfl, ?_⟩
  intro ht
  exact descendLeft_leftmost t [] ht

/-- Witness for C7 on a three-node tree. -/
theorem C7_inorder_traversal_witness :
    fwdList (begin (Tree.node (Tree.node .leaf [1, 2] 1 .leaf) [2, 1] 0
        (Tree.node .leaf [3, 3] 2 .leaf)))
      (count (Tree.node (Tree.node .leaf [1, 2] 1 .leaf) [2, 1] 0
        (Tree.node .leaf [3, 3] 2 .leaf)))
      = inorder (Tree.node (Tree.node .leaf [1, 2] 1 .leaf) [2, 1] 0
        (Tree.node .leaf [3, 3] 2 .leaf))
    ∧ inc^[count (Tree.node (Tree.node .leaf [1, 2] 1 .leaf) [2, 1] 0
        (Tree.node .leaf [3, 3] 2 .leaf))]
      (begin (Tree.node (Tree.node .leaf [1, 2] 1 .leaf) [2, 1] 0
        (Tree.node .leaf [3, 3] 2 .leaf))) = none
    ∧ ∃ cs, begin (Tree.node (Tree.node .leaf [1, 2] 1 .leaf) [2, 1] 0
        (Tree.node .leaf [3, 3] 2 .leaf))
      = some (cs, spec_leftmost (Tree.node (Tree.node .leaf [1, 2] 1 .leaf) [2, 1] 0
        (Tree.node .leaf [3, 3] 2 .leaf))) :=
  ⟨(C7_inorder_traversal (Tree.node (Tree.node .leaf [1, 2] 1 .leaf) [2, 1] 0
      (Tree.node .leaf [3, 3] 2 .leaf))).1,
   (C7_inorder_traversal (Tree.node (Tree.node .leaf [1, 2] 1 .leaf) [2, 1] 0
      (Tree.node .leaf [3, 3] 2 .leaf))).2.1,
   (C7_inorder_traversal (Tree.node (Tree.node .leaf [1, 2] 1 .leaf) [2, 1] 0
      (Tree.node .leaf [3, 3] 2 .leaf))).2.2.2 (by decide)⟩

/-! ### Backward traversal (claim C8) -/

theorem plug_append : ∀ (cs : List Crumb) (c : Crumb) (f : Tree),
    plug (cs ++ [c]) f = rebuild c (plug cs f) := by
  intro cs
  induction cs with
  | nil => intro c f; rfl
  | cons a cs ih => intro c f; exact ih c (rebuild a f)

theorem plug_ne_leaf : ∀ (cs : List Crumb) (f : Tree), f ≠ Tree.leaf →
    plug cs f ≠ Tree.leaf := by
  intro cs
  induction cs with
  | nil => intro f h; exact h
  | cons c cs ih =>
    intro f _
    apply ih
    cases c <;> simp [rebuild]

theorem upPrev_eq_nil : ∀ cs : List Crumb,
    upPrev cs = [] ↔ ∀ c ∈ cs, c.isLft = true := by
  intro cs
  induction cs with
  | nil => simp [upPrev]
  | cons c cs ih =>
    cases c with
    | lft ky v r => simp [upPrev, Crumb.isLft, ih]
    | rgt l ky v => simp [upPrev, Crumb.isLft]

theorem descendLeft_allLft : ∀ (t : Tree) (acc : List Crumb) (p : List Crumb × Tree),
    (∀ c ∈ acc, c.isLft = true) → descendLeft acc t = some p →
    ∀ c ∈ p.1, c.isLft = true := by
  intro t
  induction t with
  | leaf => intro acc p _ h; exact absurd h (by simp [descendLeft])
  | node l ky v r ihl ihr =>
    intro acc p hacc h
    cases l with
    | leaf =>
      have hp : p = (acc, Tree.node .leaf ky v r) := by
        simpa [descendLeft] using h.symm
      rw [hp]
      exact hacc
    | node a kb vb b =>
      exact ihl (.lft ky v r :: acc) p
        (by
          intro c hc
          rcases List.mem_cons.mp hc with h1 | h1
          · rw [h1]; rfl
          · exact hacc c h1) h

theorem descendLeft_plug_allLft :
    ∀ (cs : List Crumb), (∀ c ∈ cs, c.isLft = true) →
      ∀ (ky : Key) (v : Value) (r : Tree) (acc : List Crumb),
        descendLeft acc (plug cs (Tree.node .leaf ky v r))
          = some (cs ++ acc, Tree.node .leaf ky v r) := by
  intro cs
  induction cs using List.reverseRecOn with
  | nil =>
    intro _ ky v r acc
    rfl
  | append_singleton cs c ih =>
    intro hall ky v r acc
    have hcs : ∀ c2 ∈ cs, c2.isLft = true := by
      intro c2 hc2
      exact hall c2 (List.mem_append_left _ hc2)
    have hc : c.isLft = true := hall c (List.mem_append_right _ (List.mem_cons_self _ _))
    cases c with
    | rgt l2 ky2 v2 => simp [Crumb.isLft] at hc
    | lft ky2 v2 r2 =>
      rw [plug_append]
      have hne : plug cs (Tree.node .leaf ky v r) ≠ Tree.leaf :=
        plug_ne_leaf cs _ (by simp)
      obtain ⟨a, kb, vb, b, hab⟩ : ∃ a kb vb b,
          plug cs (Tree.node .leaf ky v r) = Tree.node a kb vb b := by
        cases hpl : plug cs (Tree.node .leaf ky v r) with
        | leaf => exact absurd hpl hne
        | node a kb vb b => exact ⟨a, kb, vb, b, rfl⟩
      show descendLeft acc
          (Tree.node (plug cs (Tree.node .leaf ky v r)) ky2 v2 r2) = _
      rw [hab]
      show descendLeft (.lft ky2 v2 r2 :: acc) (Tree.node a kb vb b) = _
      rw [← hab, ih hcs ky v r (.lft ky2 v2 r2 :: acc)]
      simp

theorem bem_descendRight : ∀ (t : Tree) (cs : List Crumb), t ≠ Tree.leaf →
    bem (descendRight cs t) = (inorder t).reverse ++ upPrev cs := by
  intro t
  induction t with
  | leaf => intro cs h; exact absurd rfl h
  | node l ky v r ihl ihr =>
    intro cs _
    cases r with
    | leaf =>
      show bem (some (cs, Tree.node l ky v .leaf)) = _
      simp [bem, inorder]
    | node a kb vb b =>
      show bem (descendRight (.rgt l ky v :: cs) (Tree.node a kb vb b)) = _
      rw [ihr (.rgt l ky v :: cs) (by simp)]
      simp [upPrev, inorder]

theorem goodCur_descendRight : ∀ (t : Tree) (cs : List Crumb),
    goodCur (descendRight cs t) := by
  intro t
  induction t with
  | leaf => intro cs; simp [descendRight, goodCur]
  | node l ky v r ihl ihr =>
    intro cs
    cases r with
    | leaf => simp [descendRight, goodCur]
    | node a kb vb b => exact ihr (.rgt l ky v :: cs)

theorem descendRight_plug : ∀ (t : Tree) (cs : List Crumb) (p : List Crumb × Tree),
    descendRight cs t = some p → plug p.1 p.2 = plug cs t := by
  intro t
  induction t with
  | leaf => intro cs p h; exact absurd h (by simp [descendRight])
  | node l ky v r ihl ihr =>
    intro cs p h
    cases r with
    | leaf =>
      have hp : p = (cs, Tree.node l ky v .leaf) := by
        simpa [descendRight] using h.symm
      rw [hp]
    | node a kb vb b =>
      have h2 := ihr (.rgt l ky v :: cs) p h
      rw [h2]
      rfl

theorem bem_walkUpLeft : ∀ (cs : List Crumb) (cur : Tree),
    bem (walkUpLeft cs cur) = upPrev cs := by
  intro cs
  induction cs with
  | nil => intro cur; rfl
  | cons c cs ih =>
    intro cur
    cases c with
    | rgt l ky v => simp [walkUpLeft, bem, upPrev]
    | lft ky v r => simp [walkUpLeft, upPrev, ih]

theorem walkUpLeft_plug : ∀ (cs : List Crumb) (cur : Tree) (p : List Crumb × Tree),
    walkUpLeft cs cur = some p → plug p.1 p.2 = plug cs cur := by
  intro cs
  induction cs with
  | nil => intro cur p h; exact absurd h (by simp [walkUpLeft])
  | cons c cs ih =>
    intro cur p h
    cases c with
    | rgt l ky v =>
      have hp : p = (cs, Tree.node l ky v cur) := by
        simpa [walkUpLeft] using h.symm
      rw [hp]
      rfl
    | lft ky v r =>
      have h2 := ih (Tree.node cur ky v r) p h
      rw [h2]
      rfl

theorem bwd_step (t : Tree) (c c2 : Cursor) (n : Nat)
    (hdec : dec t c = c2)
    (hbem : bem c2 = afterB t c)
    (hplug : ∀ cs2 f2, c2 = some (cs2, f2) → plug cs2 f2 = t)
    (hl : (afterB t c).length = n + 1)
    (ih : ∀ c2 : Cursor, cursorGoodFor t c2 → (afterB t c2).length = n →
        bwdList t c2 n = afterB t c2 ∧ (dec t)^[n] c2 = begin t) :
    bwdList t c (n + 1) = afterB t c ∧ (dec t)^[n + 1] c = begin t := by
  have hne : bem c2 ≠ [] := by
    rw [hbem]
    intro h
    rw [h] at hl
    simp at hl
  obtain ⟨cs2, l2, ky2, v2, r2, hc2⟩ :
      ∃ cs2 l2 ky2 v2 r2, c2 = some (cs2, Tree.node l2 ky2 v2 r2) := by
    match c2 with
    | none => exact absurd rfl hne
    | some (cs2, Tree.leaf) => exact absurd rfl hne
    | some (cs2, Tree.node l2 ky2 v2 r2) => exact ⟨cs2, l2, ky2, v2, r2, rfl⟩
  subst hc2
  have hbem2 : bem (some (cs2, Tree.node l2 ky2 v2 r2))
      = (ky2, v2) :: afterB t (some (cs2, Tree.node l2 ky2 v2 r2)) := rfl
  have hl2 : (afterB t (some (cs2, Tree.node l2 ky2 v2 r2))).length = n := by
    have := hl
    rw [← hbem, hbem2] at this
    simpa using this
  have hv2 : cursorGoodFor t (some (cs2, Tree.node l2 ky2 v2 r2)) :=
    ⟨hplug cs2 _ rfl, by simp⟩
  obtain ⟨iha, ihb⟩ := ih (some (cs2, Tree.node l2 ky2 v2 r2)) hv2 hl2
  constructor
  · show (match dec t c with
      | none => []
      | some (_, Tree.leaf) => []
      | some (cs3, Tree.node l3 ky3 v3 r3) =>
        (ky3, v3) :: bwdList t (some (cs3, Tree.node l3 ky3 v3 r3)) n) = afterB t c
    rw [hdec]
    show (ky2, v2) :: bwdList t (some (cs2, Tree.node l2 ky2 v2 r2)) n = _
    rw [iha, ← hbem, hbem2]
  · rw [Function.iterate_succ_apply, hdec]
    exact ihb

theorem bwd_aux : ∀ (n : Nat) (t : Tree) (c : Cursor), cursorGoodFor t c →
    (afterB t c).length = n →
    bwdList t c n = afterB t c ∧ (dec t)^[n] c = begin t := by
  intro n
  induction n with
  | zero =>
    intro t c hv hl
    match c, hv with
    | none, _ =>
      have ht : t = Tree.leaf := by
        apply inorder_eq_nil.mp
        have h2 : ((inorder t).reverse).length = 0 := hl
        simpa using h2
      subst ht
      exact ⟨rfl, rfl⟩
    | some (cs, Tree.leaf), hv => exact absurd rfl hv.2
    | some (cs, Tree.node l ky v r), hv =>
      have h2 : ((inorder l).reverse ++ upPrev cs).length = 0 := hl
      have hni : inorder l = [] := by
        have := h2
        simp only [List.length_append, List.length_reverse] at this
        exact List.length_eq_zero.mp (by omega)
      have hup : upPrev cs = [] := by
        have := h2
        simp only [List.length_append, List.length_reverse] at this
        exact List.length_eq_zero.mp (by omega)
      have hleaf : l = Tree.leaf := inorder_eq_nil.mp hni
      subst hleaf
      have hall : ∀ cr ∈ cs, cr.isLft = true := (upPrev_eq_nil cs).mp hup
      have hb : descendLeft [] (plug cs (Tree.node .leaf ky v r))
          = some (cs ++ [], Tree.node .leaf ky v r) :=
        descendLeft_plug_allLft cs hall ky v r []
      have hbt : begin t = some (cs, Tree.node .leaf ky v r) := by
        show descendLeft [] t = _
        rw [← hv.1, hb]
        simp
      refine ⟨?_, ?_⟩
      · show ([] : List Entry) = afterB t (some (cs, Tree.node .leaf ky v r))
        show ([] : List Entry) = (inorder Tree.leaf).reverse ++ upPrev cs
        rw [hup]
        rfl
      · show (some (cs, Tree.node .leaf ky v r) : Cursor) = begin t
        rw [hbt]
  | succ n ih =>
    intro t c hv hl
    match c, hv with
    | none, _ =>
      have ht : t ≠ Tree.leaf := by
        intro h
        subst h
        simp [afterB, inorder] at hl
      apply bwd_step t none (descendRight [] t) n rfl ?_ ?_ hl (fun c2 a b => ih t c2 a b)
      · rw [bem_descendRight t [] ht]
        simp [upPrev, afterB]
      · intro cs2 f2 h2
        have := descendRight_plug t [] (cs2, f2) h2
        simpa [plug] using this
    | some (cs, Tree.leaf), hv => exact absurd rfl hv.2
    | some (cs, Tree.node l ky v r), hv =>
      cases l with
      | node a kb vb b =>
        apply bwd_step t (some (cs, Tree.node (Tree.node a kb vb b) ky v r))
          (descendRight (.lft ky v r :: cs) (Tree.node a kb vb b)) n rfl ?_ ?_ hl
          (fun c2 hva hvb => ih t c2 hva hvb)
        · rw [bem_descendRight _ _ (by simp)]
          show _ = (inorder (Tree.node a kb vb b)).reverse ++ upPrev cs
          simp [upPrev]
        · intro cs2 f2 h2
          have h3 := descendRight_plug _ _ (cs2, f2) h2
          rw [h3]
          show plug cs (Tree.node (Tree.node a kb vb b) ky v r) = t
          exact hv.1
      | leaf =>
        have hup : upPrev cs ≠ [] := by
          intro h
          have h2 : (afterB t (some (cs, Tree.node Tree.leaf ky v r))).length = n + 1 := hl
          show False
          have h3 : ((inorder Tree.leaf).reverse ++ upPrev cs).length = n + 1 := h2
          rw [h] at h3
          simp [inorder] at h3
        have hnb : ¬ (some (cs, Tree.node Tree.leaf ky v r) = begin t) := by
          intro heq
          have h2 : descendLeft [] t = some (cs, Tree.node Tree.leaf ky v r) := heq.symm
          have h3 : ∀ cr ∈ cs, cr.isLft = true :=
            descendLeft_allLft t [] (cs, Tree.node Tree.leaf ky v r) (by simp) h2
          exact hup ((upPrev_eq_nil cs).mpr h3)
        have hdec : dec t (some (cs, Tree.node Tree.leaf ky v r))
            = walkUpLeft cs (Tree.node Tree.leaf ky v r) := by
          show (if some (cs, Tree.node .leaf ky v r) = begin t
            then some (cs, Tree.node .leaf ky v r)
            else walkUpLeft cs (Tree.node .leaf ky v r)) = _
          rw [if_neg hnb]
        apply bwd_step t (some (cs, Tree.node Tree.leaf ky v r))
          (walkUpLeft cs (Tree.node Tree.leaf ky v r)) n hdec ?_ ?_ hl
          (fun c2 hva hvb => ih t c2 hva hvb)
        · rw [bem_walkUpLeft]
          show _ = (inorder Tree.leaf).reverse ++ upPrev cs
          simp [inorder]
        · intro cs2 f2 h2
          have h3 := walkUpLeft_plug _ _ (cs2, f2) h2
          rw [h3]
          exact hv.1

theorem bwd_traverse (t : Tree) :
    bwdList t none (count t) = (inorder t).reverse
    ∧ (dec t)^[count t] none = begin t := by
  have h1 : (afterB t none).length = count t := by
    show ((inorder t).reverse).length = count t
    rw [List.length_reverse, count_eq_length]
  obtain ⟨ha, hb⟩ := bwd_aux (count t) t none trivial h1
  exact ⟨ha, hb⟩

/-- C8: stepping forward `count t` times from `begin()` reaches end,
stepping backward `count t` times from end returns to `begin()`, and the
backward sequence of entries is the exact reverse of the forward one. -/
theorem C8_roundtrip (t : Tree) :
    inc^[count t] (begin t) = none
    ∧ (dec t)^[count t] none = begin t
    ∧ bwdList t none (count t) = (fwdList (begin t) (count t)).reverse := by
  refine ⟨(fwd_traverse t).2, (bwd_traverse t).2, ?_⟩
  rw [(fwd_traverse t).1]
  exact (bwd_traverse t).1

end KD
